import Mathlib

/-!
Verification of the ledger + Merkle-proof engine + voting consensus core of the
AI-HealthChain repository.

The development shallowly embeds the JavaScript source:

* `MerkleTree.js` (the MerkleEngine): `buildTree`, `getProof`, `verifyProof`.
  SHA-256 is modelled as an uninterpreted function `h : String -> String`;
  where a claim needs the fact that digests are 64 lowercase hex characters,
  this is an explicit hypothesis `Digest64` on `h`.  The `hash` method of the
  engine first attempts `JSON.parse`; on the 128-character concatenation of two
  hex digests this parse fails (such a string is valid JSON only when all of
  its characters are decimal digits), so the combine step is modelled with the
  same uninterpreted hash that `verifyProof` uses for its raw SHA-256 calls.

* `Blockchain` in `core/Blockchain.js` (the Ledger): transactions, blocks,
  `calculateMerkleRoot`, `minePendingTransactions`, `isChainValid`.  Here hash
  values that participate in injectivity arguments are modelled by the free
  algebra `HashV` (collision-free SHA-256), and `JSON.stringify` is modelled
  concretely by `strChars` on the JSON value type `JsVal`.

* `ConsensusEngine.js`: `proposeBlock`, `voteOnBlock`, `checkConsensus`,
  `validateBlockProposal`, `syncChain`, together with the node registry of
  `NodeManager.js`.

JavaScript `while` loops without a structural measure are embedded with an
explicit fuel argument so that every definition reduces in the kernel; the
fuel-exhausted branches are unreachable under the fuel bounds used by the
theorems.  Thrown exceptions are modelled by `Except`.
-/

/-- Model of the JavaScript `toLowerCase` on a single character (ASCII range,
which is all that arises for hex digests). -/
def jsCharLower (c : Char) : Char :=
  if 'A' ≤ c ∧ c ≤ 'Z' then Char.ofNat (c.toNat + 32) else c

/-- Model of the JavaScript `toLowerCase` on a string. -/
def jsToLower (s : String) : String :=
  String.mk (s.data.map jsCharLower)

/-- Hex digit, either case: the character class of the regex
`/^[a-f0-9]{64}$/i` in `MerkleTree.getProof`. -/
def isHexDigitCI (c : Char) : Bool :=
  ('0' ≤ c && c ≤ '9') || ('a' ≤ c && c ≤ 'f') || ('A' ≤ c && c ≤ 'F')

/-- Model of the test `/^[a-f0-9]{64}$/i.test(s)`. -/
def isHex64 (s : String) : Bool :=
  s.data.length == 64 && s.data.all isHexDigitCI

/-- Lowercase hex digit. -/
def isLowerHexDigit (c : Char) : Bool :=
  ('0' ≤ c && c ≤ '9') || ('a' ≤ c && c ≤ 'f')

/-- A 64-character lowercase hex string: the shape of every SHA-256 hex digest
produced by `crypto.createHash("sha256").digest("hex")`. -/
def isLowerHex64 (s : String) : Bool :=
  s.data.length == 64 && s.data.all isLowerHexDigit

/-- The hypothesis under which an uninterpreted hash function models the hex
SHA-256 digests of the source: every output is 64 lowercase hex characters. -/
def Digest64 (h : String → String) : Prop :=
  ∀ s, isLowerHex64 (h s) = true

theorem char_toNat_le_of_le {a b : Char} (h : a ≤ b) : a.toNat ≤ b.toNat :=
  Char.le_def.mp h

theorem list_map_id_of_forall {α} (f : α → α) :
    ∀ l : List α, (∀ c ∈ l, f c = c) → l.map f = l := by
  intro l h
  induction l with
  | nil => rfl
  | cons a t ih => simp_all

theorem jsCharLower_of_lowerHex {c : Char} (hc : isLowerHexDigit c = true) :
    jsCharLower c = c := by
  unfold jsCharLower
  unfold isLowerHexDigit at hc
  rw [if_neg]
  intro hAZ
  rcases hAZ with ⟨h1, h2⟩
  simp only [Bool.or_eq_true, Bool.and_eq_true, decide_eq_true_eq] at hc
  have n1 : (65 : Nat) ≤ c.toNat := char_toNat_le_of_le h1
  rcases hc with ⟨h3, h4⟩ | ⟨h3, h4⟩
  · have n2 : c.toNat ≤ (57 : Nat) := char_toNat_le_of_le h4
    omega
  · have n2 : c.toNat ≤ (102 : Nat) := char_toNat_le_of_le h4
    have n3 : (97 : Nat) ≤ c.toNat := char_toNat_le_of_le h3
    have n4 : c.toNat ≤ (90 : Nat) := char_toNat_le_of_le h2
    omega

theorem jsToLower_of_lowerHex64 {s : String} (hs : isLowerHex64 s = true) :
    jsToLower s = s := by
  unfold isLowerHex64 at hs
  simp only [Bool.and_eq_true, List.all_eq_true] at hs
  unfold jsToLower
  have heq : s.data.map jsCharLower = s.data := by
    apply list_map_id_of_forall
    intro c hc
    exact jsCharLower_of_lowerHex (hs.2 c hc)
  rw [heq]

theorem lowerHex64_ne_empty {s : String} (hs : isLowerHex64 s = true) :
    s ≠ "" := by
  unfold isLowerHex64 at hs
  simp only [Bool.and_eq_true, beq_iff_eq] at hs
  intro he
  subst he
  simp at hs

theorem isHex64_of_lowerHex64 {s : String} (hs : isLowerHex64 s = true) :
    isHex64 s = true := by
  unfold isLowerHex64 at hs
  unfold isHex64
  simp only [Bool.and_eq_true, List.all_eq_true] at hs ⊢
  refine ⟨hs.1, fun c hc => ?_⟩
  have := hs.2 c hc
  unfold isLowerHexDigit at this
  unfold isHexDigitCI
  simp only [Bool.or_eq_true] at this ⊢
  tauto

/-! ## MerkleEngine: `MerkleTree.js`

Items of type `α` are hashed by `hItem : α → String` (the `hash` method of the
engine, i.e. SHA-256 of the key-normalized JSON form); interior nodes combine
two hex digests by `hCat : String → String` (SHA-256 of their concatenation).
-/

/-- A sibling step of a Merkle proof path as produced by `getProof`. -/
structure PathNode where
  hash : String
  position : String
deriving DecidableEq, Repr

/-- The proof object returned by `getProof`. -/
structure MerkleProof where
  leaf : String
  path : List PathNode
  root : String
deriving DecidableEq, Repr

/-- A possibly malformed path node as consumed by the static `verifyProof`:
in JavaScript any of the fields may be absent. -/
structure RawPathNode where
  hash : Option String
  position : Option String
deriving DecidableEq, Repr

/-- A possibly malformed proof object as consumed by the static `verifyProof`. -/
structure RawProof where
  leaf : Option String
  path : Option (List RawPathNode)
  root : Option String
deriving DecidableEq, Repr

/-- View a well-formed proof as the shape `verifyProof` consumes. -/
def MerkleProof.toRaw (p : MerkleProof) : RawProof :=
  ⟨some p.leaf, some (p.path.map fun n => ⟨some n.hash, some n.position⟩), some p.root⟩

/-- One bottom-up combine level of `buildTree`: adjacent pairs are hashed
together and an odd trailing node is duplicated and hashed with itself. -/
def stepUp (hCat : String → String) : List String → List String
  | a :: b :: rest => hCat (a ++ b) :: stepUp hCat rest
  | [a] => [hCat (a ++ a)]
  | [] => []

/-- The `while (currentLevel.length > 1)` loop of `buildTree`, collecting all
levels starting with the leaves.  The fuel argument only totalizes the loop;
`fuel ≥ leaves.length` always suffices. -/
def buildLevelsAux (hCat : String → String) : Nat → List String → List (List String)
  | 0, l => [l]
  | fuel + 1, l => if l.length ≤ 1 then [l] else l :: buildLevelsAux hCat fuel (stepUp hCat l)

def buildLevels (hCat : String → String) (leaves : List String) : List (List String) :=
  buildLevelsAux hCat leaves.length leaves

/-- The tree state set up by `buildTree`: `leaves`, `levels` and `root`. -/
structure MTree where
  leaves : List String
  levels : List (List String)
  root : Option String
deriving DecidableEq, Repr

/-- The root read off by `buildTree`: the first entry of the topmost level. -/
def rootOfLevels (lvls : List (List String)) : Option String :=
  (lvls.getLast?).bind fun l => l.head?

/-- `buildTree(data)` of `MerkleTree.js` (together with the constructor, which
leaves `root = null` on empty input). -/
def buildTree {α} (hItem : α → String) (hCat : String → String) (data : List α) : MTree :=
  if data.isEmpty then ⟨[], [], none⟩
  else
    let leaves := data.map hItem
    let levels := buildLevels hCat leaves
    ⟨leaves, levels, rootOfLevels levels⟩

/-- Model of `Array.prototype.findIndex` specialized to a Boolean predicate,
returning the index of the first match. -/
def jsFindIndex {α} (p : α → Bool) : List α → Option Nat
  | [] => none
  | x :: xs => if p x then some 0 else (jsFindIndex p xs).map (· + 1)

/-- One path entry built by the proof loop of `getProof` for index `i` of
level `lvl`: the sibling hash when it exists, the node itself otherwise. -/
def pathNodeAt (lvl : List String) (i : Nat) : PathNode :=
  let isLeft := i % 2 == 0
  let sibIdx := if isLeft then i + 1 else i - 1
  if sibIdx < lvl.length then
    ⟨lvl.getD sibIdx "", if isLeft then "right" else "left"⟩
  else
    ⟨lvl.getD i "", if isLeft then "right" else "left"⟩

/-- The `while (currentLevel < this.levels.length - 1)` loop of `getProof`. -/
def buildPath : List (List String) → Nat → List PathNode
  | [], _ => []
  | [_], _ => []
  | lvl :: l2 :: rest, i => pathNodeAt lvl i :: buildPath (l2 :: rest) (i / 2)

inductive GetProofErr where
  | emptyTree
  | notFound
deriving DecidableEq, Repr

/-- The hex shortcut of `getProof`/`verifyProof` for string data: a 64
character hex string is taken as a leaf hash directly (lowercased). -/
def strAsHex (s : String) : Option String :=
  if isHex64 s then some (jsToLower s) else none

/-- JavaScript truthiness of a string: the empty string is falsy. -/
def strTruthy (s : String) : Bool := s != ""

/-- `getProof(data)` of `MerkleTree.js`.  `asHex` implements the
64-hex-character shortcut (always `none` for non-string data), and thrown
errors are modelled by `Except.error`. -/
def getProofE {α} (hItem : α → String) (asHex : α → Option String)
    (t : MTree) (data : α) : Except GetProofErr MerkleProof :=
  match t.root with
  | none => .error .emptyTree
  | some root =>
    if root = "" then .error .emptyTree
    else
      let leafHash := match asHex data with
        | some s => s
        | none => hItem data
      match jsFindIndex (fun x => x == leafHash) t.leaves with
      | none => .error .notFound
      | some i => .ok ⟨leafHash, buildPath t.levels i, root⟩

/-- One combining step of the verification loop of `verifyProof`; a missing
`hash` field makes the JavaScript `node.hash.toLowerCase()` throw, modelled by
`Except.error`. -/
def verifyStep (hCat : String → String) (cur : String) (node : RawPathNode) :
    Except Unit String :=
  match node.hash with
  | none => .error ()
  | some nh =>
    let sib := jsToLower nh
    if node.position = some "left" then .ok (hCat (sib ++ cur))
    else .ok (hCat (cur ++ sib))

/-- The path replay loop of `verifyProof`. -/
def replayPath (hCat : String → String) : List RawPathNode → String → Except Unit String
  | [], cur => .ok cur
  | node :: rest, cur =>
    match verifyStep hCat cur node with
    | .error e => .error e
    | .ok next => replayPath hCat rest next

/-- The static `MerkleTree.verifyProof(data, proof, root)`.  `Except.error ()`
models a thrown `TypeError` (access of a field of `undefined`); `.ok b` models
a normal Boolean return.  The inner `Option` distinguishes the early
`return false` on a leaf mismatch from a successfully determined leaf hash. -/
def verifyProofE {α} (hItem : α → String) (hCat : String → String)
    (asHex : α → Option String) (truthy : α → Bool)
    (data : Option α) (proof : Option RawProof) (root : Option String) :
    Except Unit Bool :=
  match proof with
  | none => .ok false
  | some p =>
    match p.path, p.root with
    | none, _ => .ok false
    | some _, none => .ok false
    | some path, some proot =>
      if proot = "" then .ok false
      else
        let expectedRoot := match root with
          | some r => if r = "" then proot else r
          | none => proot
        let dataTruthy := match data with
          | some d => truthy d
          | none => false
        let afterLeaf : Except Unit (Option String) :=
          match data, dataTruthy with
          | some d, true =>
            let leafHash := match asHex d with
              | some s => s
              | none => hItem d
            match p.leaf with
            | none => .error ()
            | some pl =>
              if jsToLower leafHash = jsToLower pl then .ok (some leafHash)
              else .ok none
          | _, _ =>
            match p.leaf with
            | none => .error ()
            | some pl => .ok (some (jsToLower pl))
        match afterLeaf with
        | .error e => .error e
        | .ok none => .ok false
        | .ok (some leafHash) =>
          match replayPath hCat path leafHash with
          | .error e => .error e
          | .ok final => .ok (jsToLower final == jsToLower expectedRoot)

/-! ### Structure lemmas for the engine levels -/

theorem stepUp_length (hCat : String → String) :
    ∀ l : List String, (stepUp hCat l).length = (l.length + 1) / 2
  | [] => rfl
  | [_] => by simp [stepUp]
  | _ :: _ :: rest => by
    simp only [stepUp, List.length_cons, stepUp_length hCat rest]
    omega

theorem stepUp_all_digest {h : String → String} (hD : Digest64 h) :
    ∀ l : List String, ∀ x ∈ stepUp h l, isLowerHex64 x = true
  | [], x, hx => by simp [stepUp] at hx
  | [a], x, hx => by
    simp only [stepUp, List.mem_singleton] at hx
    subst hx; exact hD _
  | a :: b :: rest, x, hx => by
    simp only [stepUp, List.mem_cons] at hx
    rcases hx with hx | hx
    · subst hx; exact hD _
    · exact stepUp_all_digest hD rest x hx

theorem stepUp_getD (h : String → String) :
    ∀ (l : List String) (i : Nat), i < l.length →
      (stepUp h l).getD (i / 2) "" =
        if i % 2 = 0 then
          (if i + 1 < l.length then h (l.getD i "" ++ l.getD (i + 1) "")
           else h (l.getD i "" ++ l.getD i ""))
        else h (l.getD (i - 1) "" ++ l.getD i "")
  | [], i, hi => by simp at hi
  | [a], i, hi => by
    simp only [List.length_singleton] at hi
    interval_cases i
    simp [stepUp]
  | a :: b :: rest, 0, hi => by
    rw [if_pos (show (0:Nat) % 2 = 0 from rfl),
      if_pos (show 0 + 1 < (a :: b :: rest).length from by simp)]
    rfl
  | a :: b :: rest, 1, hi => by
    rw [if_neg (show ¬ ((1:Nat) % 2 = 0) from by decide)]
    rfl
  | a :: b :: rest, (k + 2), hi => by
    have hk : k < rest.length := by
      simp only [List.length_cons] at hi
      omega
    have ih := stepUp_getD h rest k hk
    have e1 : (stepUp h (a :: b :: rest)).getD ((k + 2) / 2) "" =
        (stepUp h rest).getD (k / 2) "" := by
      have hdiv : (k + 2) / 2 = k / 2 + 1 := by omega
      simp only [stepUp, hdiv, List.getD_cons_succ]
    rw [e1, ih]
    have e2 : (a :: b :: rest).getD (k + 2) "" = rest.getD k "" := rfl
    have e3 : (a :: b :: rest).getD (k + 2 + 1) "" = rest.getD (k + 1) "" := rfl
    have e5 : (k + 2) % 2 = k % 2 := by omega
    rw [e5, e2, e3]
    by_cases hke : k % 2 = 0
    · rw [if_pos hke, if_pos hke]
      by_cases hlt : k + 1 < rest.length
      · rw [if_pos hlt,
          if_pos (show k + 2 + 1 < (a :: b :: rest).length from by simp; omega)]
      · rw [if_neg hlt,
          if_neg (show ¬ (k + 2 + 1 < (a :: b :: rest).length) from by simp; omega)]
    · rw [if_neg hke, if_neg hke]
      have hk1 : 1 ≤ k := by
        rcases Nat.eq_zero_or_pos k with h0 | h0
        · exact absurd (by simp [h0]) hke
        · exact h0
      have e4 : (a :: b :: rest).getD (k + 2 - 1) "" = rest.getD (k - 1) "" := by
        have he : k + 2 - 1 = (k - 1) + 2 := by omega
        rw [he]
        exact List.getD_cons_succ.trans List.getD_cons_succ
      rw [e4]

theorem buildLevelsAux_ne_nil (hCat : String → String) (fuel : Nat) (l : List String) :
    buildLevelsAux hCat fuel l ≠ [] := by
  cases fuel with
  | zero => simp [buildLevelsAux]
  | succ n =>
    simp only [buildLevelsAux]
    split <;> simp

theorem rootOfLevels_cons {l : List String} {rest : List (List String)} (hne : rest ≠ []) :
    rootOfLevels (l :: rest) = rootOfLevels rest := by
  rcases List.exists_cons_of_ne_nil hne with ⟨b, t, rfl⟩
  unfold rootOfLevels
  rw [List.getLast?_cons_cons]

theorem buildLevelsAux_all_digest {h : String → String} (hD : Digest64 h) :
    ∀ (fuel : Nat) (l : List String), (∀ x ∈ l, isLowerHex64 x = true) →
      ∀ lvl ∈ buildLevelsAux h fuel l, ∀ x ∈ lvl, isLowerHex64 x = true := by
  intro fuel
  induction fuel with
  | zero =>
    intro l hl lvl hlvl
    simp only [buildLevelsAux, List.mem_singleton] at hlvl
    subst hlvl; exact hl
  | succ n ih =>
    intro l hl lvl hlvl
    simp only [buildLevelsAux] at hlvl
    split at hlvl
    · simp only [List.mem_singleton] at hlvl
      subst hlvl; exact hl
    · simp only [List.mem_cons] at hlvl
      rcases hlvl with hlvl | hlvl
      · subst hlvl; exact hl
      · exact ih (stepUp h l) (stepUp_all_digest hD l) lvl hlvl

/-- The root of the levels of a non-empty leaf list exists and is a digest or
one of the leaves. -/
theorem rootOfLevels_buildLevelsAux {h : String → String} (hD : Digest64 h) :
    ∀ (fuel : Nat) (l : List String), l ≠ [] → (∀ x ∈ l, isLowerHex64 x = true) →
      ∃ r, rootOfLevels (buildLevelsAux h fuel l) = some r ∧ isLowerHex64 r = true := by
  intro fuel
  induction fuel with
  | zero =>
    intro l hne hl
    rcases List.exists_cons_of_ne_nil hne with ⟨a, t, rfl⟩
    exact ⟨a, by simp [buildLevelsAux, rootOfLevels], hl a (by simp)⟩
  | succ n ih =>
    intro l hne hl
    simp only [buildLevelsAux]
    split
    · rcases List.exists_cons_of_ne_nil hne with ⟨a, t, rfl⟩
      exact ⟨a, by simp [rootOfLevels], hl a (by simp)⟩
    · rename_i hlen
      have hsne : stepUp h l ≠ [] := by
        have := stepUp_length h l
        intro hc
        rw [hc] at this
        simp at this
        omega
      rcases ih (stepUp h l) hsne (stepUp_all_digest hD l) with ⟨r, hr, hrd⟩
      exact ⟨r, by rw [rootOfLevels_cons (buildLevelsAux_ne_nil h n _)]; exact hr, hrd⟩

theorem list_getD_mem {l : List String} {i : Nat} (hi : i < l.length) :
    l.getD i "" ∈ l := by
  rw [List.getD_eq_getElem l "" hi]
  exact List.getElem_mem hi

theorem pathNodeAt_even {l : List String} {i : Nat} (hpar : i % 2 = 0)
    (hlt : i + 1 < l.length) :
    pathNodeAt l i = ⟨l.getD (i + 1) "", "right"⟩ := by
  unfold pathNodeAt
  simp [hpar, hlt]

theorem pathNodeAt_even_last {l : List String} {i : Nat} (hpar : i % 2 = 0)
    (hlt : ¬ (i + 1 < l.length)) :
    pathNodeAt l i = ⟨l.getD i "", "right"⟩ := by
  unfold pathNodeAt
  simp [hpar, hlt]

theorem pathNodeAt_odd {l : List String} {i : Nat} (hpar : ¬ (i % 2 = 0))
    (hlt : i - 1 < l.length) :
    pathNodeAt l i = ⟨l.getD (i - 1) "", "left"⟩ := by
  unfold pathNodeAt
  simp [hpar, hlt]

theorem verifyStep_right (h : String → String) (cur nh : String) :
    verifyStep h cur ⟨some nh, some "right"⟩ = .ok (h (cur ++ jsToLower nh)) := by
  unfold verifyStep
  simp

theorem verifyStep_left (h : String → String) (cur nh : String) :
    verifyStep h cur ⟨some nh, some "left"⟩ = .ok (h (jsToLower nh ++ cur)) := by
  unfold verifyStep
  simp

/-- Replaying the path that `getProof` collects for leaf index `i` reproduces
the root of the tree levels.  This is the heart of the round-trip property. -/
theorem replayPath_buildPath {h : String → String} (hD : Digest64 h) :
    ∀ (fuel : Nat) (l : List String) (i : Nat) (r : String),
      l.length ≤ fuel → i < l.length → (∀ x ∈ l, isLowerHex64 x = true) →
      rootOfLevels (buildLevelsAux h fuel l) = some r →
      replayPath h
        ((buildPath (buildLevelsAux h fuel l) i).map fun n => ⟨some n.hash, some n.position⟩)
        (l.getD i "") = .ok r := by
  intro fuel
  induction fuel with
  | zero =>
    intro l i r hf hi _ _
    have hl : l = [] := List.length_eq_zero.mp (Nat.le_zero.mp hf)
    subst hl
    simp at hi
  | succ n ih =>
    intro l i r hf hi hdig hroot
    by_cases hlen : l.length ≤ 1
    · simp only [buildLevelsAux, if_pos hlen] at hroot ⊢
      rcases List.exists_cons_of_ne_nil
        (show l ≠ [] from by intro hc; subst hc; simp at hi) with ⟨x, t, rfl⟩
      have ht : t = [] := by
        simp only [List.length_cons] at hlen
        exact List.length_eq_zero.mp (by omega)
      subst ht
      have hi0 : i = 0 := by
        simp only [List.length_singleton] at hi
        omega
      subst hi0
      simp only [rootOfLevels, List.getLast?_singleton, Option.some_bind, List.head?_cons,
        Option.some.injEq] at hroot
      simp only [buildPath, List.map_nil, replayPath, List.getD_cons_zero, hroot]
    · have hlen2 : 2 ≤ l.length := by omega
      simp only [buildLevelsAux, if_neg hlen] at hroot ⊢
      have hLne : buildLevelsAux h n (stepUp h l) ≠ [] := buildLevelsAux_ne_nil h n _
      have hrootL : rootOfLevels (buildLevelsAux h n (stepUp h l)) = some r := by
        rw [rootOfLevels_cons hLne] at hroot
        exact hroot
      rcases List.exists_cons_of_ne_nil hLne with ⟨L1, Lr, hLcons⟩
      rw [hLcons]
      have hback : L1 :: Lr = buildLevelsAux h n (stepUp h l) := hLcons.symm
      have hsib_digest : ∀ j, j < l.length → isLowerHex64 (l.getD j "") = true :=
        fun j hj => hdig _ (list_getD_mem hj)
      have hnext : ∃ next,
          verifyStep h (l.getD i "")
            ⟨some (pathNodeAt l i).hash, some (pathNodeAt l i).position⟩ = .ok next ∧
          next = (stepUp h l).getD (i / 2) "" := by
        by_cases hpar : i % 2 = 0
        · by_cases hlt : i + 1 < l.length
          · refine ⟨h (l.getD i "" ++ l.getD (i + 1) ""), ?_, ?_⟩
            · rw [pathNodeAt_even hpar hlt]
              rw [verifyStep_right]
              rw [jsToLower_of_lowerHex64 (hsib_digest _ hlt)]
            · rw [stepUp_getD h l i hi, if_pos hpar, if_pos hlt]
          · refine ⟨h (l.getD i "" ++ l.getD i ""), ?_, ?_⟩
            · rw [pathNodeAt_even_last hpar hlt]
              rw [verifyStep_right]
              rw [jsToLower_of_lowerHex64 (hsib_digest _ hi)]
            · rw [stepUp_getD h l i hi, if_pos hpar, if_neg hlt]
        · have hlt : i - 1 < l.length := by omega
          refine ⟨h (l.getD (i - 1) "" ++ l.getD i ""), ?_, ?_⟩
          · rw [pathNodeAt_odd hpar hlt]
            rw [verifyStep_left]
            rw [jsToLower_of_lowerHex64 (hsib_digest _ hlt)]
          · rw [stepUp_getD h l i hi, if_neg hpar]
      rcases hnext with ⟨next, hstep, hnextval⟩
      have hihlen : (stepUp h l).length ≤ n := by
        rw [stepUp_length]
        omega
      have hidx : i / 2 < (stepUp h l).length := by
        rw [stepUp_length]
        omega
      have := ih (stepUp h l) (i / 2) r hihlen hidx (stepUp_all_digest hD l) hrootL
      simp only [buildPath, List.map_cons, replayPath, hstep]
      rw [hnextval, hback]
      exact this

theorem jsFindIndex_some {p : String → Bool} :
    ∀ (l : List String) (i : Nat), jsFindIndex p l = some i →
      i < l.length ∧ p (l.getD i "") = true
  | [], i, h => by simp [jsFindIndex] at h
  | x :: xs, i, h => by
    simp only [jsFindIndex] at h
    by_cases hx : p x = true
    · rw [if_pos hx] at h
      have : i = 0 := by
        cases h
        rfl
      subst this
      exact ⟨by simp, by simpa using hx⟩
    · rw [if_neg hx] at h
      rcases Option.map_eq_some'.mp h with ⟨j, hj, rfl⟩
      have := jsFindIndex_some xs j hj
      exact ⟨by simpa using this.1, by simpa using this.2⟩

theorem jsFindIndex_isSome {p : String → Bool} :
    ∀ (l : List String), (∃ x ∈ l, p x = true) → ∃ i, jsFindIndex p l = some i
  | [], h => by simp at h
  | x :: xs, h => by
    simp only [jsFindIndex]
    by_cases hx : p x = true
    · exact ⟨0, by rw [if_pos hx]⟩
    · rcases h with ⟨y, hy, hpy⟩
      rcases List.mem_cons.mp hy with rfl | hy2
      · exact absurd hpy hx
      · rcases jsFindIndex_isSome xs ⟨y, hy2, hpy⟩ with ⟨j, hj⟩
        exact ⟨j + 1, by rw [if_neg hx, hj]; rfl⟩

/-- C1 (amended form): for a tree built over a non-empty list of string items,
the round trip holds for every item that is not itself a 64-character hex
string: `getProof` succeeds and `verifyProof(item, proof, root)` returns
`true`.  The hash is an arbitrary function producing 64-character lowercase
hex digests (`Digest64`). -/
theorem merkleRoundTripNonHex (h : String → String) (hD : Digest64 h)
    (data : List String) (item : String) (hmem : item ∈ data)
    (hhex : isHex64 item = false) :
    ∃ (r : String) (p : MerkleProof),
      (buildTree h h data).root = some r ∧
      getProofE h strAsHex (buildTree h h data) item = .ok p ∧
      verifyProofE h h strAsHex strTruthy (some item) (some p.toRaw) (some r) = .ok true := by
  have hne : data ≠ [] := List.ne_nil_of_mem hmem
  have hdig : ∀ x ∈ data.map h, isLowerHex64 x = true := by
    intro x hx
    rcases List.mem_map.mp hx with ⟨y, _, rfl⟩
    exact hD y
  obtain ⟨r, hr, hrd⟩ :=
    rootOfLevels_buildLevelsAux hD (data.map h).length (data.map h)
      (by simpa using hne) hdig
  have htree : buildTree h h data =
      ⟨data.map h, buildLevels h (data.map h), rootOfLevels (buildLevels h (data.map h))⟩ := by
    unfold buildTree
    rw [if_neg (by simpa using hne)]
  have hrootval : rootOfLevels (buildLevels h (data.map h)) = some r := hr
  have hrne : r ≠ "" := lowerHex64_ne_empty hrd
  have hashex : strAsHex item = none := by
    unfold strAsHex
    rw [if_neg (by simp [hhex])]
  obtain ⟨i, hfi⟩ := jsFindIndex_isSome (p := fun x => x == h item) (data.map h)
    ⟨h item, List.mem_map_of_mem h hmem, by simp⟩
  obtain ⟨hilt, hieq⟩ := jsFindIndex_some _ _ hfi
  have hgetD : (data.map h).getD i "" = h item := by simpa using hieq
  have hproof : getProofE h strAsHex (buildTree h h data) item =
      .ok ⟨h item, buildPath (buildLevels h (data.map h)) i, r⟩ := by
    rw [htree]
    unfold getProofE
    simp only [hrootval, hashex, hfi]
    rw [if_neg hrne]
  refine ⟨r, ⟨h item, buildPath (buildLevels h (data.map h)) i, r⟩, ?_, hproof, ?_⟩
  · rw [htree]
    exact hrootval
  · have hreplay : replayPath h
        ((buildPath (buildLevels h (data.map h)) i).map fun n => ⟨some n.hash, some n.position⟩)
        ((data.map h).getD i "") = .ok r :=
      replayPath_buildPath hD (data.map h).length (data.map h) i r (le_refl _) hilt hdig hr
    rw [hgetD] at hreplay
    unfold verifyProofE MerkleProof.toRaw
    dsimp only
    rw [if_neg hrne, if_neg hrne]
    by_cases htr : strTruthy item = true
    · rw [htr]
      dsimp only
      rw [hashex]
      dsimp only
      rw [if_pos rfl]
      dsimp only
      rw [hreplay]
      dsimp only
      simp [jsToLower_of_lowerHex64 hrd]
    · rw [Bool.not_eq_true] at htr
      rw [htr]
      dsimp only
      rw [jsToLower_of_lowerHex64 (hD item)]
      rw [hreplay]
      simp [jsToLower_of_lowerHex64 hrd]

/-- A constant hash function returning the 64-character digest of `a`
characters: a degenerate but valid `Digest64` instance used to instantiate
the uninterpreted SHA-256 in concrete witnesses. -/
def constDigestA : String → String := fun _ => String.mk (List.replicate 64 'a')

theorem constDigestA_digest64 : Digest64 constDigestA := by
  intro s
  show isLowerHex64 (String.mk (List.replicate 64 'a')) = true
  decide

/-- C1 counterexample: the round trip fails as universally stated.  For an
item that is itself a 64-character hex string, `getProof` looks the item up
directly as a leaf hash (lowercased) instead of hashing it, so the item built
into the tree is not found and `getProof` throws a not-found error.  Here the
hash function is the constant digest of 64 `a` characters (a valid `Digest64`
instance) and the item is the 64-character hex string of `b` characters. -/
theorem merkleRoundTripHexItemCounterexample :
    Digest64 constDigestA ∧
    getProofE constDigestA strAsHex
      (buildTree constDigestA constDigestA [String.mk (List.replicate 64 'b')])
      (String.mk (List.replicate 64 'b')) = .error .notFound :=
  ⟨constDigestA_digest64, rfl⟩

/-- Witness for C1: the amended round trip at the concrete one-item tree over
the item `x` with a constant `Digest64` hash. -/
theorem merkleRoundTripNonHexWitness :
    ∃ (r : String) (p : MerkleProof),
      (buildTree constDigestA constDigestA ["x"]).root = some r ∧
      getProofE constDigestA strAsHex
        (buildTree constDigestA constDigestA ["x"]) "x" = .ok p ∧
      verifyProofE constDigestA constDigestA strAsHex strTruthy
        (some "x") (some p.toRaw) (some r) = .ok true :=
  merkleRoundTripNonHex constDigestA constDigestA_digest64 ["x"] "x" (by simp) (by decide)

theorem buildPath_three_length (l0 l1 l2 : List String) (i : Nat) :
    (buildPath [l0, l1, l2] i).length = 2 := by
  simp [buildPath]

/-- C9: over the items `record1`, `record2`, `record3` the tree duplicates the
odd trailing leaf and hashes it with itself at the first combine level, and
the proof of each of the three items has a path of exactly two elements
(`ceil(log2(3)) = 2`). -/
theorem merkleOddLeafThreeRecords (h : String → String) (hD : Digest64 h) :
    ((buildTree h h ["record1", "record2", "record3"]).levels.getD 1 [] =
      [h (h "record1" ++ h "record2"), h (h "record3" ++ h "record3")]) ∧
    (∀ item ∈ (["record1", "record2", "record3"] : List String),
      ∃ p, getProofE h strAsHex (buildTree h h ["record1", "record2", "record3"]) item = .ok p ∧
        p.path.length = 2) := by
  have htree : buildTree h h ["record1", "record2", "record3"] =
      ⟨[h "record1", h "record2", h "record3"],
       [[h "record1", h "record2", h "record3"],
        [h (h "record1" ++ h "record2"), h (h "record3" ++ h "record3")],
        [h (h (h "record1" ++ h "record2") ++ h (h "record3" ++ h "record3"))]],
       some (h (h (h "record1" ++ h "record2") ++ h (h "record3" ++ h "record3")))⟩ := by
    simp [buildTree, buildLevels, buildLevelsAux, stepUp, rootOfLevels]
  refine ⟨by rw [htree]; rfl, ?_⟩
  intro item hmem
  have hroot_ne : h (h (h "record1" ++ h "record2") ++ h (h "record3" ++ h "record3")) ≠ "" :=
    lowerHex64_ne_empty (hD _)
  have hhex : strAsHex item = none := by
    rcases List.mem_cons.mp hmem with rfl | hmem2
    · decide
    rcases List.mem_cons.mp hmem2 with rfl | hmem3
    · decide
    rcases List.mem_cons.mp hmem3 with rfl | hmem4
    · decide
    · simp at hmem4
  have hmemleaf : h item ∈ [h "record1", h "record2", h "record3"] := by
    rcases List.mem_cons.mp hmem with rfl | hmem2
    · simp
    rcases List.mem_cons.mp hmem2 with rfl | hmem3
    · simp
    rcases List.mem_cons.mp hmem3 with rfl | hmem4
    · simp
    · simp at hmem4
  obtain ⟨i, hfi⟩ := jsFindIndex_isSome (p := fun x => x == h item)
    [h "record1", h "record2", h "record3"] ⟨h item, hmemleaf, by simp⟩
  refine ⟨⟨h item,
    buildPath [[h "record1", h "record2", h "record3"],
      [h (h "record1" ++ h "record2"), h (h "record3" ++ h "record3")],
      [h (h (h "record1" ++ h "record2") ++ h (h "record3" ++ h "record3"))]] i,
    h (h (h "record1" ++ h "record2") ++ h (h "record3" ++ h "record3"))⟩, ?_, ?_⟩
  · rw [htree]
    unfold getProofE
    simp only [hhex, hfi]
    rw [if_neg hroot_ne]
  · exact buildPath_three_length _ _ _ i

/-- Witness for C9 at the constant `Digest64` hash, projecting the proof-path
length fact for `record1`. -/
theorem merkleOddLeafThreeRecordsWitness :
    ∃ p, getProofE constDigestA strAsHex
      (buildTree constDigestA constDigestA ["record1", "record2", "record3"])
      "record1" = .ok p ∧ p.path.length = 2 :=
  (merkleOddLeafThreeRecords constDigestA constDigestA_digest64).2 "record1" (by simp)

theorem replayPath_total (hCat : String → String) :
    ∀ (nodes : List RawPathNode) (cur : String),
      (∀ nd ∈ nodes, nd.hash ≠ none) →
      ∃ out, replayPath hCat nodes cur = .ok out
  | [], cur, _ => ⟨cur, rfl⟩
  | nd :: rest, cur, hall => by
    have hh : nd.hash ≠ none := hall nd (by simp)
    rcases Option.ne_none_iff_exists'.mp hh with ⟨nh, hnh⟩
    have hrest : ∀ x ∈ rest, x.hash ≠ none := fun x hx => hall x (by simp [hx])
    unfold replayPath verifyStep
    rw [hnh]
    dsimp only
    by_cases hpos : nd.position = some "left"
    · rw [if_pos hpos]
      exact replayPath_total hCat rest _ hrest
    · rw [if_neg hpos]
      exact replayPath_total hCat rest _ hrest

/-- C8 (amended form): `verifyProof` returns `false` without throwing when the
proof object is absent, or its `path` or `root` field is missing, and it
returns some Boolean without throwing whenever the `leaf` field and every
path-node `hash` field are present; but (see the counterexample) a proof whose
`path` and `root` are present while `leaf` or a node `hash` is missing makes
the JavaScript code throw a `TypeError` instead of returning `false`. -/
theorem merkleVerifyFailClosedShape {α} (hItem : α → String) (hCat : String → String)
    (asHex : α → Option String) (truthy : α → Bool) :
    (∀ (data : Option α) (root : Option String),
      verifyProofE hItem hCat asHex truthy data none root = .ok false) ∧
    (∀ (data : Option α) (root : Option String) (p : RawProof), p.path = none →
      verifyProofE hItem hCat asHex truthy data (some p) root = .ok false) ∧
    (∀ (data : Option α) (root : Option String) (p : RawProof), p.root = none →
      verifyProofE hItem hCat asHex truthy data (some p) root = .ok false) ∧
    (∀ (data : Option α) (root : Option String) (leaf : String)
      (nodes : List RawPathNode) (proot : String),
      (∀ nd ∈ nodes, nd.hash ≠ none) →
      ∃ b, verifyProofE hItem hCat asHex truthy data
        (some ⟨some leaf, some nodes, some proot⟩) root = .ok b) := by
  refine ⟨fun _ _ => rfl, ?_, ?_, ?_⟩
  · intro data root p hp
    rcases p with ⟨pl, pp, pr⟩
    simp only at hp
    subst hp
    rfl
  · intro data root p hp
    rcases p with ⟨pl, pp, pr⟩
    simp only at hp
    subst hp
    cases pp with
    | none => rfl
    | some path => rfl
  · intro data root leaf nodes proot hall
    unfold verifyProofE
    dsimp only
    by_cases hpr : proot = ""
    · rw [if_pos hpr]
      exact ⟨false, rfl⟩
    · rw [if_neg hpr]
      rcases data with _ | d
      · dsimp only
        rcases replayPath_total hCat nodes (jsToLower leaf) hall with ⟨out, hout⟩
        rw [hout]
        exact ⟨_, rfl⟩
      · rcases htr : truthy d with _ | _
        · dsimp only
          rw [htr]
          dsimp only
          rcases replayPath_total hCat nodes (jsToLower leaf) hall with ⟨out, hout⟩
          rw [hout]
          exact ⟨_, rfl⟩
        · dsimp only
          rw [htr]
          dsimp only
          by_cases hleaf : jsToLower (match asHex d with | some s => s | none => hItem d) =
              jsToLower leaf
          · rw [if_pos hleaf]
            dsimp only
            rcases replayPath_total hCat nodes
              (match asHex d with | some s => s | none => hItem d) hall with ⟨out, hout⟩
            rw [hout]
            exact ⟨_, rfl⟩
          · rw [if_neg hleaf]
            exact ⟨false, rfl⟩

/-- C8 counterexample: a proof object whose `path` and `root` fields are
present but whose `leaf` field is missing makes `verifyProof` throw a
`TypeError` (modelled by `Except.error ()`) instead of returning `false`:
with no data supplied, the code dereferences `proof.leaf.toLowerCase()`. -/
theorem merkleVerifyMissingLeafThrows :
    verifyProofE (fun s : String => s) (fun s => s) strAsHex strTruthy
      none (some ⟨none, some [], some "aa"⟩) none = .error () := rfl

/-- Witness for C8: the well-shaped branch evaluated on a concrete proof. -/
theorem merkleVerifyFailClosedShapeWitness :
    ∃ b, verifyProofE (fun s : String => s) (fun s => s) strAsHex strTruthy
      (some "x") (some ⟨some "aa", some [], some "bb"⟩) none = .ok b :=
  (merkleVerifyFailClosedShape (fun s : String => s) (fun s => s) strAsHex strTruthy).2.2.2
    (some "x") none "aa" [] "bb" (fun nd hnd => by simp at hnd)

/-! ## JSON values and `JSON.stringify`

Transactions are JSON objects; the Ledger hashes them through
`JSON.stringify`.  `JsVal` is the JSON value domain (object fields in
insertion order, numbers restricted to the naturals arising here), `strChars`
the serialization.  String content is escaped for `"` and backslash exactly as
`JSON.stringify` does for such strings (control-character escapes are not
modelled; no value in this development contains them). -/

inductive JsVal where
  | str (s : String)
  | num (n : Nat)
  | bool (b : Bool)
  | null
  | arr (elems : List JsVal)
  | obj (fields : List (String × JsVal))

/-- JavaScript truthiness of a JSON value. -/
def jsTruthy : JsVal → Bool
  | .str s => s != ""
  | .num n => n != 0
  | .bool b => b
  | .null => false
  | .arr _ => true
  | .obj _ => true

def digitChar (d : Nat) : Char := Char.ofNat (48 + d)

/-- Decimal digits of `n`, most significant first; structural in the fuel.
`fuel ≥ n` always suffices, and the result is `[]` for `n = 0`. -/
def natCharsCore : Nat → Nat → List Char
  | 0, _ => []
  | fuel + 1, n => if n = 0 then [] else natCharsCore fuel (n / 10) ++ [digitChar (n % 10)]

/-- The decimal representation `String(n)` produced by `JSON.stringify` for a
natural number. -/
def jsNumChars (n : Nat) : List Char := if n = 0 then ['0'] else natCharsCore n n

/-- One string character as serialized by `JSON.stringify`: quote and
backslash are escaped. -/
def escChar (c : Char) : List Char :=
  if c = '"' ∨ c = '\\' then ['\\', c] else [c]

def escChars : List Char → List Char
  | [] => []
  | c :: cs => escChar c ++ escChars cs

mutual
/-- `JSON.stringify` of a JSON value, as a character list. -/
def strChars : JsVal → List Char
  | .str s => '"' :: (escChars s.data ++ ['"'])
  | .num n => jsNumChars n
  | .bool b => if b then ['t', 'r', 'u', 'e'] else ['f', 'a', 'l', 's', 'e']
  | .null => ['n', 'u', 'l', 'l']
  | .arr es => '[' :: (arrChars es ++ [']'])
  | .obj fs => Char.ofNat 123 :: (objChars fs ++ [Char.ofNat 125])
termination_by structural v => v

def arrChars : List JsVal → List Char
  | [] => []
  | [v] => strChars v
  | v :: w :: rest => strChars v ++ ',' :: arrChars (w :: rest)
termination_by structural l => l

def objChars : List (String × JsVal) → List Char
  | [] => []
  | [(k, v)] => '"' :: (escChars k.data ++ ['"', ':']) ++ strChars v
  | (k, v) :: p :: rest =>
    ('"' :: (escChars k.data ++ ['"', ':']) ++ strChars v) ++ ',' :: objChars (p :: rest)
termination_by structural l => l
end

/-- One `"key":value` field of a serialized object. -/
def fieldChars (k : String) (v : JsVal) : List Char :=
  '"' :: (escChars k.data ++ ['"', ':']) ++ strChars v

theorem objChars_single (k : String) (v : JsVal) : objChars [(k, v)] = fieldChars k v := rfl

theorem objChars_cons (k : String) (v : JsVal) (p : String × JsVal)
    (rest : List (String × JsVal)) :
    objChars ((k, v) :: p :: rest) = fieldChars k v ++ ',' :: objChars (p :: rest) := rfl

/-- `JSON.stringify` as a string. -/
def stringifyJs (v : JsVal) : String := String.mk (strChars v)

/-- Decimal digit character. -/
def isDigitC (c : Char) : Bool := ('0' ≤ c && c ≤ '9')

def charVal (c : Char) : Nat := c.toNat - 48

def digitsVal (l : List Char) : Nat := l.foldl (fun a c => a * 10 + charVal c) 0

theorem charVal_digitChar {d : Nat} (hd : d < 10) : charVal (digitChar d) = d := by
  interval_cases d <;> decide

theorem isDigitC_digitChar {d : Nat} (hd : d < 10) : isDigitC (digitChar d) = true := by
  interval_cases d <;> decide

theorem digitsVal_append_digit (l : List Char) (c : Char) :
    digitsVal (l ++ [c]) = digitsVal l * 10 + charVal c := by
  unfold digitsVal
  rw [List.foldl_append]
  rfl

theorem natCharsCore_val : ∀ (fuel n : Nat), n ≤ fuel → digitsVal (natCharsCore fuel n) = n
  | 0, n, h => by
    have : n = 0 := Nat.le_zero.mp h
    subst this
    rfl
  | fuel + 1, n, h => by
    unfold natCharsCore
    by_cases hn : n = 0
    · subst hn
      simp [digitsVal]
    · rw [if_neg hn]
      rw [digitsVal_append_digit]
      have hrec : n / 10 ≤ fuel := by
        have := Nat.div_lt_self (Nat.pos_of_ne_zero hn) (by norm_num : 1 < 10)
        omega
      rw [natCharsCore_val fuel (n / 10) hrec]
      rw [charVal_digitChar (Nat.mod_lt n (by norm_num))]
      omega

theorem natCharsCore_digits : ∀ (fuel n : Nat), ∀ c ∈ natCharsCore fuel n, isDigitC c = true
  | 0, n, c, hc => by simp [natCharsCore] at hc
  | fuel + 1, n, c, hc => by
    unfold natCharsCore at hc
    by_cases hn : n = 0
    · rw [if_pos hn] at hc
      simp at hc
    · rw [if_neg hn] at hc
      rcases List.mem_append.mp hc with hc | hc
      · exact natCharsCore_digits fuel (n / 10) c hc
      · simp only [List.mem_singleton] at hc
        subst hc
        exact isDigitC_digitChar (Nat.mod_lt n (by norm_num))

theorem jsNumChars_val (n : Nat) : digitsVal (jsNumChars n) = n := by
  unfold jsNumChars
  by_cases hn : n = 0
  · rw [if_pos hn, hn]
    rfl
  · rw [if_neg hn]
    exact natCharsCore_val n n (le_refl n)

theorem jsNumChars_inj {n m : Nat} (h : jsNumChars n = jsNumChars m) : n = m := by
  have := jsNumChars_val n
  rw [h, jsNumChars_val m] at this
  omega

theorem jsNumChars_digits (n : Nat) : ∀ c ∈ jsNumChars n, isDigitC c = true := by
  unfold jsNumChars
  by_cases hn : n = 0
  · rw [if_pos hn]
    intro c hc
    simp only [List.mem_singleton] at hc
    subst hc
    decide
  · rw [if_neg hn]
    exact natCharsCore_digits n n

theorem jsNumChars_ne_nil (n : Nat) : jsNumChars n ≠ [] := by
  unfold jsNumChars
  by_cases hn : n = 0
  · rw [if_pos hn]
    simp
  · rw [if_neg hn]
    rcases n with _ | m
    · exact absurd rfl hn
    · simp only [natCharsCore]
      rw [if_neg hn]
      simp

/-- Guard: a rest list that does not begin with a decimal digit, so that a
serialized number followed by it parses back unambiguously. -/
def sepOk : List Char → Prop
  | [] => True
  | c :: _ => isDigitC c = false

theorem digit_run_unique :
    ∀ (d1 d2 r1 r2 : List Char),
      (∀ c ∈ d1, isDigitC c = true) → (∀ c ∈ d2, isDigitC c = true) →
      sepOk r1 → sepOk r2 → d1 ++ r1 = d2 ++ r2 → d1 = d2 ∧ r1 = r2
  | [], [], r1, r2, _, _, _, _, he => ⟨rfl, he⟩
  | [], c2 :: t2, r1, r2, _, h2, g1, _, he => by
    simp only [List.nil_append] at he
    subst he
    have g1x : isDigitC c2 = false := g1
    rw [h2 c2 (by simp)] at g1x
    simp at g1x
  | c1 :: t1, [], r1, r2, h1, _, _, g2, he => by
    simp only [List.nil_append] at he
    rw [← he] at g2
    have g2x : isDigitC c1 = false := g2
    rw [h1 c1 (by simp)] at g2x
    simp at g2x
  | c1 :: t1, c2 :: t2, r1, r2, h1, h2, g1, g2, he => by
    simp only [List.cons_append, List.cons.injEq] at he
    obtain ⟨rfl, htail⟩ := he
    have := digit_run_unique t1 t2 r1 r2
      (fun c hc => h1 c (by simp [hc])) (fun c hc => h2 c (by simp [hc])) g1 g2 htail
    exact ⟨by rw [this.1], this.2⟩

theorem esc_unique :
    ∀ (l1 l2 r1 r2 : List Char),
      escChars l1 ++ '"' :: r1 = escChars l2 ++ '"' :: r2 → l1 = l2 ∧ r1 = r2
  | [], [], r1, r2, he => by
    simp only [escChars, List.nil_append, List.cons.injEq] at he
    exact ⟨rfl, he.2⟩
  | [], c2 :: t2, r1, r2, he => by
    exfalso
    simp only [escChars, List.nil_append, escChar] at he
    by_cases hc2 : c2 = '"' ∨ c2 = '\\'
    · rw [if_pos hc2] at he
      simp only [List.cons_append, List.cons.injEq] at he
      have : ('"' : Char) = '\\' := he.1
      exact absurd this (by decide)
    · rw [if_neg hc2] at he
      simp only [List.cons_append, List.cons.injEq] at he
      have : c2 = '"' := he.1.symm
      exact hc2 (Or.inl this)
  | c1 :: t1, [], r1, r2, he => by
    exfalso
    simp only [escChars, List.nil_append, escChar] at he
    by_cases hc1 : c1 = '"' ∨ c1 = '\\'
    · rw [if_pos hc1] at he
      simp only [List.cons_append, List.cons.injEq] at he
      have : ('\\' : Char) = '"' := he.1
      exact absurd this (by decide)
    · rw [if_neg hc1] at he
      simp only [List.cons_append, List.cons.injEq] at he
      exact hc1 (Or.inl he.1)
  | c1 :: t1, c2 :: t2, r1, r2, he => by
    simp only [escChars, escChar] at he
    by_cases hc1 : c1 = '"' ∨ c1 = '\\'
    · by_cases hc2 : c2 = '"' ∨ c2 = '\\'
      · rw [if_pos hc1, if_pos hc2] at he
        simp only [List.cons_append, List.append_assoc, List.cons.injEq] at he
        obtain ⟨-, rfl, htail⟩ := he
        have := esc_unique t1 t2 r1 r2 htail
        exact ⟨by rw [this.1], this.2⟩
      · rw [if_pos hc1, if_neg hc2] at he
        simp only [List.cons_append, List.append_assoc, List.cons.injEq] at he
        exact absurd (Or.inr he.1.symm) hc2
    · by_cases hc2 : c2 = '"' ∨ c2 = '\\'
      · rw [if_neg hc1, if_pos hc2] at he
        simp only [List.cons_append, List.cons.injEq] at he
        exact absurd (Or.inr he.1) hc1
      · rw [if_neg hc1, if_neg hc2] at he
        simp only [List.cons_append, List.cons.injEq] at he
        obtain ⟨rfl, htail⟩ := he
        have := esc_unique t1 t2 r1 r2 htail
        exact ⟨by rw [this.1], this.2⟩

theorem jsNumChars_head (n : Nat) : ∃ c cs, jsNumChars n = c :: cs ∧ isDigitC c = true := by
  rcases hl : jsNumChars n with _ | ⟨c, cs⟩
  · exact absurd hl (jsNumChars_ne_nil n)
  · exact ⟨c, cs, rfl, jsNumChars_digits n c (by rw [hl]; simp)⟩

/-- Classification of a character as the possible first character of a
serialized JSON value; `6` means it can start no value. -/
def tagChar (c : Char) : Nat :=
  if c = '"' then 0
  else if isDigitC c = true then 1
  else if c = 't' ∨ c = 'f' then 2
  else if c = 'n' then 3
  else if c = '[' then 4
  else if c = Char.ofNat 123 then 5
  else 6

def vTag : JsVal → Nat
  | .str _ => 0
  | .num _ => 1
  | .bool _ => 2
  | .null => 3
  | .arr _ => 4
  | .obj _ => 5

theorem strChars_head_tag : ∀ v : JsVal, ∃ c cs, strChars v = c :: cs ∧ tagChar c = vTag v
  | .str s => ⟨'"', _, rfl, rfl⟩
  | .num n => by
    obtain ⟨c, cs, hl, hd⟩ := jsNumChars_head n
    refine ⟨c, cs, by simpa [strChars] using hl, ?_⟩
    unfold tagChar
    rw [if_neg, if_pos hd]
    · rfl
    · intro hq
      rw [hq] at hd
      exact absurd hd (by decide)
  | .bool true => ⟨'t', _, rfl, rfl⟩
  | .bool false => ⟨'f', _, rfl, rfl⟩
  | .null => ⟨'n', _, rfl, rfl⟩
  | .arr es => ⟨'[', _, rfl, rfl⟩
  | .obj fs => ⟨Char.ofNat 123, _, rfl, rfl⟩

theorem strChars_append_tag_eq {v w : JsVal} {r s : List Char}
    (he : strChars v ++ r = strChars w ++ s) : vTag v = vTag w := by
  obtain ⟨c1, cs1, h1, t1⟩ := strChars_head_tag v
  obtain ⟨c2, cs2, h2, t2⟩ := strChars_head_tag w
  rw [h1, h2] at he
  simp only [List.cons_append, List.cons.injEq] at he
  rw [← t1, ← t2, he.1]

theorem vTag_le_five (v : JsVal) : vTag v ≤ 5 := by
  cases v <;> simp [vTag]

/-- A serialized value can never begin with a separator character. -/
theorem strChars_head_ne (v : JsVal) (c : Char) (hc : tagChar c = 6) :
    ∀ r s, strChars v ++ r ≠ c :: s := by
  intro r s he
  obtain ⟨c1, cs1, h1, t1⟩ := strChars_head_tag v
  rw [h1] at he
  simp only [List.cons_append, List.cons.injEq] at he
  have : vTag v = 6 := by rw [← t1, he.1, hc]
  have := vTag_le_five v
  omega

theorem sepOk_cons {c : Char} {r : List Char} (h : isDigitC c = false) : sepOk (c :: r) := h

theorem strChars_bool_true : strChars (.bool true) = ['t', 'r', 'u', 'e'] := rfl

theorem strChars_bool_false : strChars (.bool false) = ['f', 'a', 'l', 's', 'e'] := rfl

theorem arrChars_cons_exists (w : JsVal) (wt : List JsVal) :
    ∃ X, arrChars (w :: wt) = strChars w ++ X := by
  cases wt with
  | nil => exact ⟨[], by simp [arrChars]⟩
  | cons w2 wt2 => exact ⟨',' :: arrChars (w2 :: wt2), rfl⟩

theorem objChars_cons_head (k : String) (w : JsVal) (gt : List (String × JsVal)) :
    ∃ X, objChars ((k, w) :: gt) = '"' :: X := by
  cases gt with
  | nil => exact ⟨(escChars k.data ++ ['"', ':']) ++ strChars w, by
      rw [objChars_single]
      simp [fieldChars]⟩
  | cons p rest => exact ⟨((escChars k.data ++ ['"', ':']) ++ strChars w) ++
      ',' :: objChars (p :: rest), by
      rw [objChars_cons]
      simp [fieldChars]⟩

/-- Unique parsing of serialized JSON: a serialized value (array-element list,
object-field list) followed by a separator-guarded rest determines the value
and the rest.  The bound `n` drives the induction over sizes. -/
theorem strChars_unique_master : ∀ n : Nat,
    (∀ (v w : JsVal) (r s : List Char), sizeOf v ≤ n → sepOk r → sepOk s →
      strChars v ++ r = strChars w ++ s → v = w ∧ r = s) ∧
    (∀ (es ys : List JsVal) (r s : List Char), sizeOf es ≤ n →
      arrChars es ++ ']' :: r = arrChars ys ++ ']' :: s → es = ys ∧ r = s) ∧
    (∀ (fs gs : List (String × JsVal)) (r s : List Char), sizeOf fs ≤ n →
      objChars fs ++ Char.ofNat 125 :: r = objChars gs ++ Char.ofNat 125 :: s →
      fs = gs ∧ r = s) := by
  intro n
  induction n using Nat.strong_induction_on with
  | _ n ih =>
  refine ⟨?_, ?_, ?_⟩
  · -- values
    intro v w r s hsz g1 g2 he
    have htag : vTag v = vTag w := strChars_append_tag_eq he
    cases v <;> cases w <;>
      try (simp only [vTag] at htag; exact absurd htag (by decide))
    case str.str s1 s2 =>
      simp only [strChars, List.cons_append, List.append_assoc, List.singleton_append,
        List.cons.injEq, true_and] at he
      obtain ⟨hdata, hrs⟩ := esc_unique _ _ _ _ he
      refine ⟨?_, hrs⟩
      cases s1
      cases s2
      exact congrArg (fun l => JsVal.str (String.mk l)) hdata
    case num.num n1 n2 =>
      simp only [strChars] at he
      obtain ⟨hd, hrs⟩ := digit_run_unique _ _ _ _ (jsNumChars_digits n1) (jsNumChars_digits n2)
        g1 g2 he
      exact ⟨by rw [jsNumChars_inj hd], hrs⟩
    case bool.bool b1 b2 =>
      cases b1 <;> cases b2
      · simp only [strChars_bool_false, List.cons_append, List.cons.injEq, true_and] at he
        exact ⟨rfl, he⟩
      · simp only [strChars_bool_true, strChars_bool_false, List.cons_append,
          List.cons.injEq] at he
        exact absurd he.1 (by decide)
      · simp only [strChars_bool_true, strChars_bool_false, List.cons_append,
          List.cons.injEq] at he
        exact absurd he.1 (by decide)
      · simp only [strChars_bool_true, List.cons_append, List.cons.injEq, true_and] at he
        exact ⟨rfl, he⟩
    case null.null =>
      simp only [strChars, List.cons_append, List.cons.injEq, true_and] at he
      exact ⟨rfl, he⟩
    case arr.arr es1 es2 =>
      simp only [strChars, List.cons_append, List.append_assoc, List.singleton_append,
        List.cons.injEq, true_and] at he
      have hlt : sizeOf es1 < n := by
        simp only [JsVal.arr.sizeOf_spec] at hsz
        omega
      obtain ⟨hes, hrs⟩ := (ih (sizeOf es1) hlt).2.1 es1 es2 r s (le_refl _) he
      exact ⟨by rw [hes], hrs⟩
    case obj.obj fs1 fs2 =>
      simp only [strChars, List.cons_append, List.append_assoc, List.singleton_append,
        List.cons.injEq, true_and] at he
      have hlt : sizeOf fs1 < n := by
        simp only [JsVal.obj.sizeOf_spec] at hsz
        omega
      obtain ⟨hfs, hrs⟩ := (ih (sizeOf fs1) hlt).2.2 fs1 fs2 r s (le_refl _) he
      exact ⟨by rw [hfs], hrs⟩
  · -- array element lists
    intro es ys r s hsz he
    cases es with
    | nil =>
      cases ys with
      | nil =>
        simp only [arrChars, List.nil_append, List.cons.injEq, true_and] at he
        exact ⟨rfl, he⟩
      | cons w wt =>
        obtain ⟨X, hX⟩ := arrChars_cons_exists w wt
        rw [hX] at he
        simp only [arrChars, List.nil_append, List.append_assoc] at he
        exact absurd he.symm (strChars_head_ne w ']' (by decide) _ _)
    | cons v vt =>
      cases ys with
      | nil =>
        obtain ⟨X, hX⟩ := arrChars_cons_exists v vt
        rw [hX] at he
        simp only [arrChars, List.nil_append, List.append_assoc] at he
        exact absurd he (strChars_head_ne v ']' (by decide) _ _)
      | cons w wt =>
        have hszv : sizeOf v < n := by
          simp only [List.cons.sizeOf_spec] at hsz
          omega
        have hszvt : sizeOf vt < n := by
          simp only [List.cons.sizeOf_spec] at hsz
          omega
        cases vt with
        | nil =>
          cases wt with
          | nil =>
            simp only [arrChars] at he
            obtain ⟨hv, hrs⟩ := (ih (sizeOf v) hszv).1 v w (']' :: r) (']' :: s) (le_refl _)
              (sepOk_cons (by decide)) (sepOk_cons (by decide)) he
            simp only [List.cons.injEq, true_and] at hrs
            exact ⟨by rw [hv], hrs⟩
          | cons w2 wt2 =>
            simp only [arrChars, List.cons_append, List.append_assoc] at he
            obtain ⟨hv, hrs⟩ := (ih (sizeOf v) hszv).1 v w (']' :: r)
              (',' :: (arrChars (w2 :: wt2) ++ ']' :: s)) (le_refl _)
              (sepOk_cons (by decide)) (sepOk_cons (by decide)) he
            exact absurd hrs.symm (by simp)
        | cons v2 vt2 =>
          cases wt with
          | nil =>
            simp only [arrChars, List.cons_append, List.append_assoc] at he
            obtain ⟨hv, hrs⟩ := (ih (sizeOf v) hszv).1 v w
              (',' :: (arrChars (v2 :: vt2) ++ ']' :: r)) (']' :: s) (le_refl _)
              (sepOk_cons (by decide)) (sepOk_cons (by decide)) he
            exact absurd hrs (by simp)
          | cons w2 wt2 =>
            simp only [arrChars, List.cons_append, List.append_assoc] at he
            obtain ⟨hv, hrs⟩ := (ih (sizeOf v) hszv).1 v w
              (',' :: (arrChars (v2 :: vt2) ++ ']' :: r))
              (',' :: (arrChars (w2 :: wt2) ++ ']' :: s)) (le_refl _)
              (sepOk_cons (by decide)) (sepOk_cons (by decide)) he
            simp only [List.cons.injEq, true_and] at hrs
            obtain ⟨ht, hrs2⟩ := (ih (sizeOf (v2 :: vt2)) hszvt).2.1 (v2 :: vt2) (w2 :: wt2)
              r s (le_refl _) hrs
            exact ⟨by rw [hv, ht], hrs2⟩
  · -- object field lists
    intro fs gs r s hsz he
    have hfield : ∀ (k1 : String) (v1 : JsVal) (k2 : String) (v2 : JsVal)
        (Y1 Y2 : List Char), sizeOf v1 < n → sepOk Y1 → sepOk Y2 →
        fieldChars k1 v1 ++ Y1 = fieldChars k2 v2 ++ Y2 →
        k1 = k2 ∧ v1 = v2 ∧ Y1 = Y2 := by
      intro k1 v1 k2 v2 Y1 Y2 hszv hY1 hY2 hfe
      simp only [fieldChars, List.cons_append, List.append_assoc, List.cons.injEq,
        List.singleton_append, true_and] at hfe
      obtain ⟨hk, htail⟩ := esc_unique _ _ _ _ hfe
      simp only [List.cons.injEq, true_and] at htail
      obtain ⟨hv, hrs⟩ := (ih (sizeOf v1) hszv).1 v1 v2 Y1 Y2 (le_refl _) hY1 hY2 htail
      refine ⟨?_, hv, hrs⟩
      cases k1
      cases k2
      exact congrArg String.mk hk
    cases fs with
    | nil =>
      cases gs with
      | nil =>
        simp only [objChars, List.nil_append, List.cons.injEq, true_and] at he
        exact ⟨rfl, he⟩
      | cons p gt =>
        obtain ⟨k, w⟩ := p
        obtain ⟨X, hX⟩ := objChars_cons_head k w gt
        rw [hX] at he
        simp only [objChars, List.nil_append, List.cons_append, List.cons.injEq] at he
        exact absurd he.1 (by decide)
    | cons p ft =>
      obtain ⟨k1, v1⟩ := p
      cases gs with
      | nil =>
        obtain ⟨X, hX⟩ := objChars_cons_head k1 v1 ft
        rw [hX] at he
        simp only [objChars, List.nil_append, List.cons_append, List.cons.injEq] at he
        exact absurd he.1 (by decide)
      | cons q gt =>
        obtain ⟨k2, v2⟩ := q
        have hszv : sizeOf v1 < n := by
          simp only [List.cons.sizeOf_spec, Prod.mk.sizeOf_spec] at hsz
          omega
        have hszft : sizeOf ft < n := by
          simp only [List.cons.sizeOf_spec] at hsz
          omega
        cases ft with
        | nil =>
          cases gt with
          | nil =>
            rw [objChars_single, objChars_single] at he
            obtain ⟨hk, hv, hrs⟩ := hfield k1 v1 k2 v2 (Char.ofNat 125 :: r)
              (Char.ofNat 125 :: s) hszv (sepOk_cons (by decide)) (sepOk_cons (by decide)) he
            simp only [List.cons.injEq, true_and] at hrs
            exact ⟨by rw [hk, hv], hrs⟩
          | cons q2 gt2 =>
            rw [objChars_single, objChars_cons] at he
            simp only [List.append_assoc, List.cons_append] at he
            obtain ⟨hk, hv, hrs⟩ := hfield k1 v1 k2 v2 (Char.ofNat 125 :: r)
              (',' :: (objChars (q2 :: gt2) ++ Char.ofNat 125 :: s)) hszv
              (sepOk_cons (by decide)) (sepOk_cons (by decide)) he
            exact absurd hrs (by simp)
        | cons p2 ft2 =>
          cases gt with
          | nil =>
            rw [objChars_cons, objChars_single] at he
            simp only [List.append_assoc, List.cons_append] at he
            obtain ⟨hk, hv, hrs⟩ := hfield k1 v1 k2 v2
              (',' :: (objChars (p2 :: ft2) ++ Char.ofNat 125 :: r))
              (Char.ofNat 125 :: s) hszv
              (sepOk_cons (by decide)) (sepOk_cons (by decide)) he
            exact absurd hrs (by simp)
          | cons q2 gt2 =>
            rw [objChars_cons, objChars_cons] at he
            simp only [List.append_assoc, List.cons_append] at he
            obtain ⟨hk, hv, hrs⟩ := hfield k1 v1 k2 v2
              (',' :: (objChars (p2 :: ft2) ++ Char.ofNat 125 :: r))
              (',' :: (objChars (q2 :: gt2) ++ Char.ofNat 125 :: s)) hszv
              (sepOk_cons (by decide)) (sepOk_cons (by decide)) he
            simp only [List.cons.injEq, true_and] at hrs
            obtain ⟨ht, hrs2⟩ := (ih (sizeOf (p2 :: ft2)) hszft).2.2 (p2 :: ft2) (q2 :: gt2)
              r s (le_refl _) hrs
            exact ⟨by rw [hk, hv, ht], hrs2⟩

/-- `JSON.stringify` is injective on the JSON value domain. -/
theorem stringifyJs_inj {v w : JsVal} (h : stringifyJs v = stringifyJs w) : v = w := by
  have hchars : strChars v = strChars w := by
    have := congrArg String.data h
    simpa [stringifyJs] using this
  have := (strChars_unique_master (sizeOf v)).1 v w [] [] (le_refl _) trivial trivial
    (by simpa using hchars)
  exact this.1

/-! ## Ledger: `core/Blockchain.js`

Hash values produced by the Ledger `calculateHash` are modelled by the free
algebra `HashV`: `sha s` is the SHA-256 hex digest of the string `s`, and
`node a b` the digest of the concatenation of the digests `a` and `b`
(collision-freeness of SHA-256 becomes constructor injectivity).  The block
hash, whose only role in the claims is proof-of-work and equality of
recomputation, is an uninterpreted function `bh` of the six hashed fields. -/

inductive HashV where
  | sha (s : String)
  | node (a b : HashV)
deriving DecidableEq, Repr

/-- A stored transaction.  JavaScript field names `from`/`to` are rendered as
`fromAddr`/`toAddr` (`from` is a Lean keyword). -/
structure Txn where
  fromAddr : String
  toAddr : String
  data : JsVal
  timestamp : Nat
  id : String

/-- The object layout `{from, to, data, timestamp, id}` a stored transaction
carries, in insertion order, as serialized by `JSON.stringify`. -/
def txnToJs (t : Txn) : JsVal :=
  .obj [("from", .str t.fromAddr), ("to", .str t.toAddr), ("data", t.data),
        ("timestamp", .num t.timestamp), ("id", .str t.id)]

def stringifyTxn (t : Txn) : String := stringifyJs (txnToJs t)

theorem txnToJs_inj {t1 t2 : Txn} (h : txnToJs t1 = txnToJs t2) : t1 = t2 := by
  cases t1
  cases t2
  simp only [txnToJs, JsVal.obj.injEq, List.cons.injEq, Prod.mk.injEq, JsVal.str.injEq,
    JsVal.num.injEq, true_and, and_true] at h
  obtain ⟨h1, h2, h3, h4, h5⟩ := h
  simp_all

theorem stringifyTxn_inj {t1 t2 : Txn} (h : stringifyTxn t1 = stringifyTxn t2) : t1 = t2 :=
  txnToJs_inj (stringifyJs_inj h)

/-- The Ledger `calculateHash` applied to a single transaction object:
SHA-256 of its `JSON.stringify`. -/
def txnHash (t : Txn) : HashV := .sha (stringifyTxn t)

/-- One level of the Ledger Merkle-tree loop: adjacent pairs are combined by
`calculateHash(tree[i] + tree[i+1])`; an odd trailing node is pushed up
unchanged. -/
def stepLevel : List HashV → List HashV
  | a :: b :: rest => .node a b :: stepLevel rest
  | l => l

/-- The `while (tree.length > 1)` loop of `calculateMerkleRoot`; structural in
the fuel, with `fuel ≥ list length` always sufficient. -/
def buildRootAux : Nat → List HashV → HashV
  | _, [] => .sha ""
  | _, [d] => d
  | 0, _ => .sha ""
  | fuel + 1, l => buildRootAux fuel (stepLevel l)

/-- `Blockchain.calculateMerkleRoot(transactions)`. -/
def calculateMerkleRoot (txs : List Txn) : HashV :=
  match txs with
  | [] => .sha ""
  | [t] => txnHash t
  | _ => buildRootAux txs.length (txs.map txnHash)

/-- A block `{index, timestamp, transactions, previousHash, hash, nonce,
merkleRoot}`. -/
structure Block where
  index : Nat
  timestamp : Nat
  transactions : List Txn
  previousHash : String
  hash : String
  nonce : Nat
  merkleRoot : HashV

/-- The signature of the uninterpreted block hash: the arguments of
`calculateHash(index, timestamp, transactions, previousHash, nonce,
merkleRoot)` in `calculateBlockHash`. -/
def BlockHashFn : Type :=
  Nat → Nat → List Txn → String → Nat → HashV → String

/-- `Blockchain.calculateBlockHash(block)`. -/
def calculateBlockHash (bh : BlockHashFn) (b : Block) : String :=
  bh b.index b.timestamp b.transactions b.previousHash b.nonce b.merkleRoot

/-- The fixed proof-of-work difficulty (`this.difficulty = 2`). -/
def difficulty : Nat := 2

/-- The proof-of-work target check: the first `difficulty` hex characters
must be `0` (`hash.substring(0, this.difficulty) === "00"`). -/
def powOk (s : String) : Bool := s.data.take difficulty == List.replicate difficulty '0'

/-- The nonce search loop of `proofOfWork`: the least nonce from `start`
satisfying `p`, with fuel totalizing the unbounded `while`. -/
def powSearch (p : Nat → Bool) : Nat → Nat → Option Nat
  | 0, _ => none
  | fuel + 1, start => if p start then some start else powSearch p fuel (start + 1)

/-- The Ledger state: the chain and the pending pool. -/
structure LedgerState where
  chain : List Block
  pending : List Txn

inductive LedgerErr where
  | missingFields
  | invalidTransaction
  | emptyPool
  | typeError
  | fuelOut
deriving DecidableEq, Repr

/-- `Blockchain.isValidTransaction`: all three fields truthy. -/
def isValidTransaction (t : Txn) : Bool :=
  t.fromAddr != "" && t.toAddr != "" && jsTruthy t.data

/-- `Blockchain.createGenesisBlock()`, idempotent; `gh` is the uninterpreted
hash `calculateHash(0, timestamp, [], "0")` of the genesis fields. -/
def createGenesisBlock (gh : Nat → String) (now : Nat) (st : LedgerState) :
    Block × LedgerState :=
  match st.chain with
  | [] =>
    let g : Block := ⟨0, now, [], "0", gh now, 0, calculateMerkleRoot []⟩
    (g, ⟨[g], st.pending⟩)
  | g :: _ => (g, st)

/-- `Blockchain.addTransaction(transaction)`: requires truthy `from`, `to`,
`data`; stores the transaction with a fresh id and timestamp at the end of
the pending pool. -/
def addTransaction (now : Nat) (newId : String) (st : LedgerState) (tx : Txn) :
    Except LedgerErr (Txn × LedgerState) :=
  if ¬ (tx.fromAddr ≠ "" ∧ tx.toAddr ≠ "" ∧ jsTruthy tx.data = true) then
    .error .missingFields
  else if ¬ (isValidTransaction tx = true) then
    .error .invalidTransaction
  else
    let stored : Txn := { tx with timestamp := now, id := newId }
    .ok (stored, ⟨st.chain, st.pending ++ [stored]⟩)

/-- `Blockchain.minePendingTransactions()`: fails on an empty pool, builds the
candidate block over a snapshot of the pool in order, computes the Merkle
root, runs the proof-of-work nonce search, appends the block and clears the
pool.  `.error .typeError` models the `TypeError` thrown on an empty chain
(`getLatestBlock()` is `undefined`); `.error .fuelOut` is the fuel artifact of
the unbounded nonce loop. -/
def minePendingTransactions (bh : BlockHashFn) (fuel now : Nat) (st : LedgerState) :
    Except LedgerErr (Block × LedgerState) :=
  if st.pending.length = 0 then .error .emptyPool
  else
    match st.chain.getLast? with
    | none => .error .typeError
    | some latest =>
      let root := calculateMerkleRoot st.pending
      match powSearch (fun nn => powOk (bh st.chain.length now st.pending latest.hash nn root))
          fuel 0 with
      | none => .error .fuelOut
      | some nn =>
        let b : Block := ⟨st.chain.length, now, st.pending, latest.hash,
          bh st.chain.length now st.pending latest.hash nn root, nn, root⟩
        .ok (b, ⟨st.chain ++ [b], []⟩)

/-- The three per-block checks of `isChainValid` for a non-genesis block:
recomputed hash, previous-hash linkage, recomputed Merkle root. -/
def blockOk (bh : BlockHashFn) (prev b : Block) : Bool :=
  (b.hash == calculateBlockHash bh b) && (b.previousHash == prev.hash) &&
  (b.merkleRoot == calculateMerkleRoot b.transactions)

def chainOkFrom (bh : BlockHashFn) : Block → List Block → Bool
  | _, [] => true
  | prev, b :: rest => blockOk bh prev b && chainOkFrom bh b rest

/-- `Blockchain.isChainValid()`: every block after the genesis passes the
three checks. -/
def isChainValid (bh : BlockHashFn) (chain : List Block) : Bool :=
  match chain with
  | [] => true
  | g :: rest => chainOkFrom bh g rest

theorem stepLevel_append_single :
    ∀ (l : List HashV), l.length % 2 = 0 → ∀ d : HashV, stepLevel (l ++ [d]) = stepLevel l ++ [d]
  | [], _, d => rfl
  | [a], h, d => by simp at h
  | a :: b :: rest, h, d => by
    simp only [List.cons_append, stepLevel, List.cons.injEq, true_and]
    exact stepLevel_append_single rest
      (by simp only [List.length_cons] at h; omega) d

/-- C5: the Ledger root routine hashes nothing for the empty pool beyond the
hash of the empty string, hashes a single transaction without duplication,
and carries an odd trailing node up to the next level unhashed: the node
after an even-length prefix is passed through `stepLevel` unchanged, and for
three transactions the root pairs the first two and combines the third leaf
itself (not its self-hash) at the top. -/
theorem ledgerMerkleRootPolicy :
    (calculateMerkleRoot [] = .sha "") ∧
    (∀ t : Txn, calculateMerkleRoot [t] = .sha (stringifyTxn t)) ∧
    (∀ (l : List HashV), l.length % 2 = 0 → ∀ d : HashV,
      stepLevel (l ++ [d]) = stepLevel l ++ [d]) ∧
    (∀ t1 t2 t3 : Txn, calculateMerkleRoot [t1, t2, t3] =
      .node (.node (txnHash t1) (txnHash t2)) (txnHash t3)) :=
  ⟨rfl, fun _ => rfl, stepLevel_append_single, fun _ _ _ => rfl⟩

/-- Witness for C5: the carried-up-unhashed conjunct at a concrete even
prefix and trailing node. -/
theorem ledgerMerkleRootPolicyWitness :
    stepLevel ([HashV.sha "a", HashV.sha "b"] ++ [HashV.sha "c"]) =
      stepLevel [HashV.sha "a", HashV.sha "b"] ++ [HashV.sha "c"] :=
  ledgerMerkleRootPolicy.2.2.1 [HashV.sha "a", HashV.sha "b"] (by decide) (HashV.sha "c")

theorem stepLevel_length : ∀ l : List HashV, (stepLevel l).length = (l.length + 1) / 2
  | [] => rfl
  | [_] => by simp [stepLevel]
  | _ :: _ :: rest => by
    simp only [stepLevel, List.length_cons, stepLevel_length rest]
    omega

theorem stepLevel_inj_same_len :
    ∀ l1 l2 : List HashV, l1.length = l2.length → stepLevel l1 = stepLevel l2 → l1 = l2
  | [], [], _, _ => rfl
  | [], _ :: _, hl, _ => by simp only [List.length_nil, List.length_cons] at hl; omega
  | _ :: _, [], hl, _ => by simp only [List.length_nil, List.length_cons] at hl; omega
  | [a], [b], _, h => by simpa [stepLevel] using h
  | [a], _ :: _ :: _, hl, _ => by simp only [List.length_cons, List.length_nil] at hl; omega
  | _ :: _ :: _, [b], hl, _ => by simp only [List.length_cons, List.length_nil] at hl; omega
  | a :: b :: r1, c :: d :: r2, hl, h => by
    simp only [stepLevel, List.cons.injEq, HashV.node.injEq] at h
    obtain ⟨⟨rfl, rfl⟩, ht⟩ := h
    have := stepLevel_inj_same_len r1 r2
      (by simp only [List.length_cons] at hl; omega) ht
    rw [this]

theorem buildRootAux_inj :
    ∀ (fuel : Nat) (l1 l2 : List HashV), 1 ≤ l1.length → l1.length = l2.length →
      l1.length ≤ fuel → buildRootAux fuel l1 = buildRootAux fuel l2 → l1 = l2 := by
  intro fuel
  induction fuel with
  | zero =>
    intro l1 l2 h1 _ hf _
    omega
  | succ n ih =>
    intro l1 l2 h1 hlen hf h
    rcases l1 with _ | ⟨a, r1⟩
    · simp at h1
    rcases r1 with _ | ⟨b, r1⟩
    · rcases l2 with _ | ⟨c, r2⟩
      · simp at hlen
      rcases r2 with _ | ⟨d, r2⟩
      · have hac : a = c := h
        rw [hac]
      · simp only [List.length_cons, List.length_nil] at hlen
        omega
    · rcases l2 with _ | ⟨c, r2⟩
      · simp at hlen
      rcases r2 with _ | ⟨d, r2⟩
      · simp only [List.length_cons, List.length_nil] at hlen
        omega
      · have hstep : buildRootAux n (stepLevel (a :: b :: r1)) =
            buildRootAux n (stepLevel (c :: d :: r2)) := h
        have hl1 : 1 ≤ (stepLevel (a :: b :: r1)).length := by
          rw [stepLevel_length]
          simp only [List.length_cons]
          omega
        have hl2 : (stepLevel (a :: b :: r1)).length = (stepLevel (c :: d :: r2)).length := by
          rw [stepLevel_length, stepLevel_length, hlen]
        have hl3 : (stepLevel (a :: b :: r1)).length ≤ n := by
          rw [stepLevel_length]
          simp only [List.length_cons] at hf ⊢
          omega
        exact stepLevel_inj_same_len _ _ hlen (ih _ _ hl1 hl2 hl3 hstep)

theorem txnHash_inj {t1 t2 : Txn} (h : txnHash t1 = txnHash t2) : t1 = t2 := by
  unfold txnHash at h
  simp only [HashV.sha.injEq] at h
  exact stringifyTxn_inj h

theorem calculateMerkleRoot_inj_same_len {txs1 txs2 : List Txn}
    (hlen : txs1.length = txs2.length)
    (h : calculateMerkleRoot txs1 = calculateMerkleRoot txs2) : txs1 = txs2 := by
  rcases txs1 with _ | ⟨a, r1⟩
  · rcases txs2 with _ | ⟨c, r2⟩
    · rfl
    · simp at hlen
  rcases r1 with _ | ⟨b, r1⟩
  · rcases txs2 with _ | ⟨c, r2⟩
    · simp at hlen
    rcases r2 with _ | ⟨d, r2⟩
    · have hac : txnHash a = txnHash c := h
      rw [txnHash_inj hac]
    · simp only [List.length_cons, List.length_nil] at hlen
      omega
  · rcases txs2 with _ | ⟨c, r2⟩
    · simp at hlen
    rcases r2 with _ | ⟨d, r2⟩
    · simp only [List.length_cons, List.length_nil] at hlen
      omega
    · have hroots : buildRootAux (a :: b :: r1).length ((a :: b :: r1).map txnHash) =
          buildRootAux (c :: d :: r2).length ((c :: d :: r2).map txnHash) := h
      rw [← hlen] at hroots
      have hmap : (a :: b :: r1).map txnHash = (c :: d :: r2).map txnHash := by
        apply buildRootAux_inj (a :: b :: r1).length
        · simp
        · simp only [List.length_map]
          exact hlen
        · simp
        · exact hroots
      exact List.map_injective_iff.mpr (fun x y hxy => txnHash_inj hxy) hmap

theorem chainOkFrom_iff (bh : BlockHashFn) :
    ∀ (rest : List Block) (prev : Block),
      chainOkFrom bh prev rest = true ↔
        List.Chain' (fun a b => blockOk bh a b = true) (prev :: rest)
  | [], prev => by simp [chainOkFrom]
  | b :: rest, prev => by
    rw [List.chain'_cons, ← chainOkFrom_iff bh rest b]
    simp [chainOkFrom]

theorem isChainValid_iff_chain (bh : BlockHashFn) (chain : List Block) :
    isChainValid bh chain = true ↔
      List.Chain' (fun a b => blockOk bh a b = true) chain := by
  cases chain with
  | nil => simp [isChainValid]
  | cons g rest =>
    unfold isChainValid
    exact chainOkFrom_iff bh rest g

theorem powSearch_spec {p : Nat → Bool} :
    ∀ (fuel start nn : Nat), powSearch p fuel start = some nn → p nn = true
  | 0, _, _, h => by simp [powSearch] at h
  | fuel + 1, start, nn, h => by
    unfold powSearch at h
    by_cases hp : p start = true
    · rw [if_pos hp] at h
      cases h
      exact hp
    · rw [if_neg hp] at h
      exact powSearch_spec fuel (start + 1) nn h

theorem addTransaction_ok_chain {now : Nat} {newId : String} {st st2 : LedgerState}
    {tx t : Txn} (h : addTransaction now newId st tx = .ok (t, st2)) :
    st2.chain = st.chain := by
  unfold addTransaction at h
  split at h
  · cases h
  · split at h
    · cases h
    · cases h
      rfl

theorem mine_ok_spec {bh : BlockHashFn} {fuel now : Nat} {st st2 : LedgerState} {b : Block}
    (h : minePendingTransactions bh fuel now st = .ok (b, st2)) :
    ∃ latest nn, st.chain.getLast? = some latest ∧
      b = ⟨st.chain.length, now, st.pending, latest.hash,
        bh st.chain.length now st.pending latest.hash nn (calculateMerkleRoot st.pending), nn,
        calculateMerkleRoot st.pending⟩ ∧
      st2 = ⟨st.chain ++ [b], []⟩ ∧
      powOk b.hash = true ∧ st.pending ≠ [] := by
  unfold minePendingTransactions at h
  split at h
  · cases h
  · rename_i hpend
    split at h
    · cases h
    · rename_i latest hlatest
      dsimp only at h
      split at h
      · cases h
      · rename_i nn hsearch
        cases h
        refine ⟨latest, nn, hlatest, rfl, rfl, ?_, ?_⟩
        · exact powSearch_spec fuel 0 nn hsearch
        · intro hc
          rw [hc] at hpend
          simp at hpend

/-- The whole-chain state after a mining reachability trace:
genesis creation, `addTransaction`, `minePendingTransactions`. -/
inductive Reach (bh : BlockHashFn) (gh : Nat → String) : LedgerState → Prop
  | genesis (now : Nat) : Reach bh gh ((createGenesisBlock gh now ⟨[], []⟩).2)
  | addTx {st st2 : LedgerState} {tx t : Txn} (now : Nat) (newId : String) :
      Reach bh gh st → addTransaction now newId st tx = .ok (t, st2) → Reach bh gh st2
  | mine {st st2 : LedgerState} {b : Block} (fuel now : Nat) :
      Reach bh gh st → minePendingTransactions bh fuel now st = .ok (b, st2) → Reach bh gh st2

theorem isChainValid_append {bh : BlockHashFn} {chain : List Block} {b : Block}
    (hch : isChainValid bh chain = true) (hne : chain ≠ [])
    (hbo : blockOk bh (chain.getLast hne) b = true) :
    isChainValid bh (chain ++ [b]) = true := by
  rw [isChainValid_iff_chain] at hch ⊢
  rw [List.chain'_append]
  refine ⟨hch, by simp, ?_⟩
  intro x hx y hy
  simp only [List.head?_cons, Option.mem_def, Option.some.injEq] at hy
  subst hy
  rw [List.getLast?_eq_getLast chain hne, Option.mem_def, Option.some.injEq] at hx
  subst hx
  exact hbo

/-- Mining-reachable states have a valid, non-empty chain. -/
theorem reach_valid {bh : BlockHashFn} {gh : Nat → String} {st : LedgerState}
    (h : Reach bh gh st) : isChainValid bh st.chain = true ∧ st.chain ≠ [] := by
  induction h with
  | genesis now => exact ⟨rfl, by simp [createGenesisBlock]⟩
  | addTx now newId hre heq ih =>
    rw [addTransaction_ok_chain heq]
    exact ih
  | mine fuel now hre heq ih =>
    obtain ⟨latest, nn, hlatest, hb, hst2, hpow, hpne⟩ := mine_ok_spec heq
    subst hst2
    obtain ⟨ihv, ihne⟩ := ih
    constructor
    · apply isChainValid_append ihv ihne
      subst hb
      unfold blockOk calculateBlockHash
      rw [List.getLast?_eq_getLast _ ihne, Option.some.injEq] at hlatest
      simp [← hlatest]
    · simp

/-- Mutation of the claim C2: replace the transactions of block `i` and
recompute its stored `hash` field from the mutated contents (the stored
`merkleRoot` is left as it was, exactly as in the tampering scenario). -/
def tamperBlock (bh : BlockHashFn) (chain : List Block) (i : Nat) (txs2 : List Txn) :
    List Block :=
  match chain[i]? with
  | none => chain
  | some b =>
    let m1 : Block := { b with transactions := txs2 }
    chain.set i { m1 with hash := calculateBlockHash bh m1 }

/-- C2: on any mining-reachable chain, mutating one transaction of a
non-genesis block and recomputing that block's stored hash makes
`isChainValid` return `false` (the stored Merkle root no longer matches the
recomputed one). -/
theorem ledgerTamperEvidence (bh : BlockHashFn) (gh : Nat → String) (st : LedgerState)
    (hre : Reach bh gh st) (i j : Nat) (hi1 : 1 ≤ i) (b : Block)
    (hb : st.chain[i]? = some b) (hj : j < b.transactions.length) (tx2 : Txn)
    (hne : tx2 ≠ b.transactions.get ⟨j, hj⟩) :
    isChainValid bh (tamperBlock bh st.chain i (b.transactions.set j tx2)) = false := by
  have hvalid := (reach_valid hre).1
  obtain ⟨hi, hbi⟩ := List.getElem?_eq_some_iff.mp hb
  have hchain := (isChainValid_iff_chain bh st.chain).mp hvalid
  rw [List.chain'_iff_get] at hchain
  have horig := hchain (i - 1) (by omega)
  have hidx : i - 1 + 1 = i := by omega
  simp only [hidx, List.get_eq_getElem, hbi] at horig
  simp only [blockOk, Bool.and_eq_true, beq_iff_eq] at horig
  have hroot_orig : b.merkleRoot = calculateMerkleRoot b.transactions := horig.2
  by_contra hcon
  rw [Bool.not_eq_false] at hcon
  rw [isChainValid_iff_chain, List.chain'_iff_get] at hcon
  unfold tamperBlock at hcon
  rw [hb] at hcon
  dsimp only at hcon
  have htampered := hcon (i - 1) (by simp only [List.length_set]; omega)
  simp only [hidx, List.get_eq_getElem] at htampered
  have hnei : ¬ (i = i - 1) := by omega
  simp only [List.getElem_set, hnei, eq_self_iff_true, if_true, if_false] at htampered
  simp only [blockOk, Bool.and_eq_true, beq_iff_eq] at htampered
  have hroot_new : b.merkleRoot = calculateMerkleRoot (b.transactions.set j tx2) :=
    htampered.2
  have heq : b.transactions = b.transactions.set j tx2 :=
    calculateMerkleRoot_inj_same_len (by rw [List.length_set]) (by
      rw [← hroot_orig, ← hroot_new])
  have hcongr := congrArg (fun l : List Txn => l[j]?) heq
  simp only at hcongr
  rw [List.getElem?_eq_getElem hj,
    List.getElem?_eq_getElem (show j < (b.transactions.set j tx2).length from by
      rw [List.length_set]; exact hj)] at hcongr
  simp only [List.getElem_set, eq_self_iff_true, if_true, Option.some.injEq] at hcongr
  have hfin : b.transactions.get ⟨j, hj⟩ = tx2 := by
    rw [List.get_eq_getElem]
    exact hcongr
  exact hne hfin.symm

/-- Constant block-hash function used in concrete witnesses: every block hash
is the string `00aa`, which satisfies the difficulty-2 proof-of-work target
immediately. -/
def bhConst : BlockHashFn := fun _ _ _ _ _ _ => "00aa"

def ghConst : Nat → String := fun _ => "gen"

/-- The genesis block of the concrete witness ledger. -/
def wGenesis : Block := ⟨0, 0, [], "0", "gen", 0, calculateMerkleRoot []⟩

/-- The stored transaction of the concrete witness ledger. -/
def wT1 : Txn := ⟨"alice", "bob", .obj [("v", JsVal.num 1)], 1, "id1"⟩

/-- The mined block of the concrete witness ledger. -/
def wMined : Block := ⟨1, 2, [wT1], "gen", "00aa", 0, calculateMerkleRoot [wT1]⟩

/-- A replacement transaction distinct from `wT1`. -/
def wTx2 : Txn := ⟨"carol", "dan", .obj [], 5, "id2"⟩

theorem wReachMined : Reach bhConst ghConst ⟨[wGenesis, wMined], []⟩ := by
  have h0 : Reach bhConst ghConst ⟨[wGenesis], []⟩ := Reach.genesis 0
  have h1 : Reach bhConst ghConst ⟨[wGenesis], [wT1]⟩ :=
    Reach.addTx 1 "id1" h0
      (show addTransaction 1 "id1" ⟨[wGenesis], []⟩ ⟨"alice", "bob", .obj [("v", JsVal.num 1)], 0, ""⟩ =
        .ok (wT1, ⟨[wGenesis], [wT1]⟩) from rfl)
  exact Reach.mine 1 2 h1
    (show minePendingTransactions bhConst 1 2 ⟨[wGenesis], [wT1]⟩ =
      .ok (wMined, ⟨[wGenesis, wMined], []⟩) from rfl)

/-- Witness for C2: tampering with the single transaction of the mined block
of a concrete two-block chain invalidates the chain. -/
theorem ledgerTamperEvidenceWitness :
    isChainValid bhConst (tamperBlock bhConst [wGenesis, wMined] 1
      (wMined.transactions.set 0 wTx2)) = false :=
  ledgerTamperEvidence bhConst ghConst ⟨[wGenesis, wMined], []⟩ wReachMined 1 0
    (by decide) wMined rfl (by decide) wTx2
    (fun hq => absurd (congrArg Txn.id hq) (by decide))

/-- C3: with a non-empty chain, `minePendingTransactions` fails with the
empty-pool error exactly when the pending pool is empty; a successful mine
appends exactly one block carrying the pool snapshot in its original order
whose hash meets the difficulty-2 leading-zero target, empties the pool and
grows the chain by exactly one; and when the pool is non-empty and the nonce
search succeeds within the fuel, mining does succeed. -/
theorem ledgerMiningSpec (bh : BlockHashFn) (fuel now : Nat) (st : LedgerState)
    (hchain : st.chain ≠ []) :
    (st.pending = [] → minePendingTransactions bh fuel now st = .error .emptyPool) ∧
    (minePendingTransactions bh fuel now st = .error .emptyPool → st.pending = []) ∧
    (∀ b st2, minePendingTransactions bh fuel now st = .ok (b, st2) →
      b.transactions = st.pending ∧ powOk b.hash = true ∧
      st2.chain = st.chain ++ [b] ∧ st2.pending = [] ∧
      st2.chain.length = st.chain.length + 1) ∧
    (st.pending ≠ [] →
      (∃ nn, powSearch (fun nn => powOk (bh st.chain.length now st.pending
        (st.chain.getLast hchain).hash nn (calculateMerkleRoot st.pending))) fuel 0 = some nn) →
      ∃ b st2, minePendingTransactions bh fuel now st = .ok (b, st2)) := by
  refine ⟨?_, ?_, ?_, ?_⟩
  · intro hp
    unfold minePendingTransactions
    rw [if_pos (by rw [hp]; rfl)]
  · intro h
    unfold minePendingTransactions at h
    split at h
    · rename_i hlen
      exact List.length_eq_zero.mp hlen
    · split at h
      · cases h
      · dsimp only at h
        split at h
        · cases h
        · cases h
  · intro b st2 h
    obtain ⟨latest, nn, hlatest, hb, hst2, hpow, hpne⟩ := mine_ok_spec h
    subst hst2
    refine ⟨by rw [hb], hpow, rfl, rfl, by simp⟩
  · intro hpne hsearch
    obtain ⟨nn, hnn⟩ := hsearch
    unfold minePendingTransactions
    rw [if_neg (by simpa using hpne)]
    rw [List.getLast?_eq_getLast st.chain hchain]
    dsimp only
    rw [hnn]
    exact ⟨_, _, rfl⟩

/-- Witness for C3: mining the concrete one-transaction pool over the genesis
chain succeeds and mining the empty pool fails. -/
theorem ledgerMiningSpecWitness :
    minePendingTransactions bhConst 1 2 ⟨[wGenesis], []⟩ = .error .emptyPool ∧
    ∃ b st2, minePendingTransactions bhConst 1 2 ⟨[wGenesis], [wT1]⟩ = .ok (b, st2) :=
  ⟨(ledgerMiningSpec bhConst 1 2 ⟨[wGenesis], []⟩ (List.cons_ne_nil _ _)).1 rfl,
   (ledgerMiningSpec bhConst 1 2 ⟨[wGenesis], [wT1]⟩ (List.cons_ne_nil _ _)).2.2.2
     (List.cons_ne_nil _ _) ⟨0, rfl⟩⟩

theorem char_eq_of_toNat_eq {a b : Char} (h : a.toNat = b.toNat) : a = b :=
  Char.ext (UInt32.ext h)

/-- Lexicographic code-unit comparison of strings as character lists: the
comparator applied by the default JavaScript `Array.prototype.sort()` to the
string keys in `normalizeObject`. -/
def strLeCh : List Char → List Char → Bool
  | [], _ => true
  | _ :: _, [] => false
  | a :: as, b :: bs =>
    if a.toNat < b.toNat then true
    else if b.toNat < a.toNat then false
    else strLeCh as bs

/-- Key comparison of `Object.keys(obj).sort()`. -/
def keyLe (a b : String) : Bool := strLeCh a.data b.data

theorem strLeCh_refl : ∀ l, strLeCh l l = true
  | [] => rfl
  | a :: as => by
    rw [strLeCh, if_neg (Nat.lt_irrefl _), if_neg (Nat.lt_irrefl _)]
    exact strLeCh_refl as

theorem strLeCh_total : ∀ l1 l2, strLeCh l1 l2 = true ∨ strLeCh l2 l1 = true
  | [], _ => .inl rfl
  | _ :: _, [] => .inr rfl
  | a :: as, b :: bs => by
    rcases Nat.lt_trichotomy a.toNat b.toNat with h | h | h
    · left
      rw [strLeCh, if_pos h]
    · rcases strLeCh_total as bs with h2 | h2
      · left
        rw [strLeCh, if_neg (by omega), if_neg (by omega)]
        exact h2
      · right
        rw [strLeCh, if_neg (by omega), if_neg (by omega)]
        exact h2
    · right
      rw [strLeCh, if_pos h]

theorem strLeCh_antisymm : ∀ l1 l2, strLeCh l1 l2 = true → strLeCh l2 l1 = true → l1 = l2
  | [], [], _, _ => rfl
  | [], _ :: _, _, h2 => by rw [strLeCh] at h2; exact Bool.noConfusion h2
  | _ :: _, [], h1, _ => by rw [strLeCh] at h1; exact Bool.noConfusion h1
  | a :: as, b :: bs, h1, h2 => by
    rcases Nat.lt_trichotomy a.toNat b.toNat with h | h | h
    · rw [strLeCh, if_neg (Nat.lt_asymm h), if_pos h] at h2
      exact Bool.noConfusion h2
    · have hab : a = b := char_eq_of_toNat_eq h
      subst hab
      rw [strLeCh, if_neg (Nat.lt_irrefl _), if_neg (Nat.lt_irrefl _)] at h1 h2
      rw [strLeCh_antisymm as bs h1 h2]
    · rw [strLeCh, if_neg (Nat.lt_asymm h), if_pos h] at h1
      exact Bool.noConfusion h1

theorem strLeCh_trans : ∀ l1 l2 l3, strLeCh l1 l2 = true → strLeCh l2 l3 = true →
    strLeCh l1 l3 = true
  | [], _, _, _, _ => rfl
  | _ :: _, [], _, h1, _ => by rw [strLeCh] at h1; exact Bool.noConfusion h1
  | _ :: _, _ :: _, [], _, h2 => by rw [strLeCh] at h2; exact Bool.noConfusion h2
  | a :: as, b :: bs, c :: cs, h1, h2 => by
    by_cases hab : a.toNat < b.toNat
    · by_cases hbc : b.toNat < c.toNat
      · rw [strLeCh, if_pos (by omega)]
      · by_cases hcb : c.toNat < b.toNat
        · rw [strLeCh, if_neg hbc, if_pos hcb] at h2
          exact Bool.noConfusion h2
        · rw [strLeCh, if_pos (by omega)]
    · by_cases hba : b.toNat < a.toNat
      · rw [strLeCh, if_neg hab, if_pos hba] at h1
        exact Bool.noConfusion h1
      · by_cases hbc : b.toNat < c.toNat
        · rw [strLeCh, if_pos (by omega)]
        · by_cases hcb : c.toNat < b.toNat
          · rw [strLeCh, if_neg hbc, if_pos hcb] at h2
            exact Bool.noConfusion h2
          · rw [strLeCh, if_neg hab, if_neg hba] at h1
            rw [strLeCh, if_neg hbc, if_neg hcb] at h2
            rw [strLeCh, if_neg (by omega), if_neg (by omega)]
            exact strLeCh_trans as bs cs h1 h2

theorem keyLe_refl (a : String) : keyLe a a = true := strLeCh_refl a.data

theorem keyLe_total (a b : String) : keyLe a b = true ∨ keyLe b a = true :=
  strLeCh_total a.data b.data

theorem keyLe_antisymm (a b : String) (h1 : keyLe a b = true) (h2 : keyLe b a = true) :
    a = b := by
  have hdat : a.data = b.data := strLeCh_antisymm _ _ h1 h2
  cases a
  cases b
  simp only at hdat
  rw [hdat]

theorem keyLe_trans {a b c : String} (h1 : keyLe a b = true) (h2 : keyLe b c = true) :
    keyLe a c = true := strLeCh_trans a.data b.data c.data h1 h2

/-- Insertion of one key-value field into a key-sorted field list. -/
def insertPair (p : String × JsVal) : List (String × JsVal) → List (String × JsVal)
  | [] => [p]
  | q :: qs => if keyLe p.1 q.1 then p :: q :: qs else q :: insertPair p qs

/-- Sorting of a field list by key: the effect of `Object.keys(obj).sort()` on
the field order of the object rebuilt by `normalizeObject`. -/
def sortPairs : List (String × JsVal) → List (String × JsVal)
  | [] => []
  | p :: ps => insertPair p (sortPairs ps)

theorem insertPair_perm (p : String × JsVal) :
    ∀ l, (insertPair p l).Perm (p :: l)
  | [] => List.Perm.refl _
  | q :: qs => by
    rw [insertPair]
    by_cases h : keyLe p.1 q.1 = true
    · rw [if_pos h]
    · rw [if_neg h]
      exact ((insertPair_perm p qs).cons q).trans (List.Perm.swap p q qs)

theorem sortPairs_perm : ∀ l, (sortPairs l).Perm l
  | [] => List.Perm.refl _
  | p :: ps => (insertPair_perm p (sortPairs ps)).trans ((sortPairs_perm ps).cons p)

theorem mem_insertPair {x p : String × JsVal} {l : List (String × JsVal)}
    (h : x ∈ insertPair p l) : x = p ∨ x ∈ l :=
  List.mem_cons.mp ((insertPair_perm p l).mem_iff.mp h)

theorem pairwise_insertPair {p : String × JsVal} :
    ∀ {l}, l.Pairwise (fun x y => keyLe x.1 y.1 = true) →
      (insertPair p l).Pairwise (fun x y => keyLe x.1 y.1 = true)
  | [], _ => List.pairwise_singleton _ _
  | q :: qs, h => by
    rcases List.pairwise_cons.mp h with ⟨hq, hqs⟩
    rw [insertPair]
    by_cases hle : keyLe p.1 q.1 = true
    · rw [if_pos hle]
      refine List.pairwise_cons.mpr ⟨?_, h⟩
      intro x hx
      rcases List.mem_cons.mp hx with rfl | hx
      · exact hle
      · exact keyLe_trans hle (hq x hx)
    · rw [if_neg hle]
      refine List.pairwise_cons.mpr ⟨?_, pairwise_insertPair hqs⟩
      intro x hx
      rcases mem_insertPair hx with rfl | hx
      · rcases keyLe_total x.1 q.1 with h2 | h2
        · exact absurd h2 hle
        · exact h2
      · exact hq x hx

theorem sortPairs_pairwise : ∀ l, (sortPairs l).Pairwise (fun x y => keyLe x.1 y.1 = true)
  | [] => List.Pairwise.nil
  | p :: ps => pairwise_insertPair (sortPairs_pairwise ps)

/-- Two key-sorted field lists that are permutations of each other and have
duplicate-free keys are equal. -/
theorem sorted_perm_nodup_eq :
    ∀ (l1 l2 : List (String × JsVal)), l1.Perm l2 →
      l1.Pairwise (fun x y => keyLe x.1 y.1 = true) →
      l2.Pairwise (fun x y => keyLe x.1 y.1 = true) →
      (l1.map Prod.fst).Nodup → l1 = l2
  | [], l2, hp, _, _, _ => hp.symm.eq_nil.symm
  | p :: t1, [], hp, _, _, _ => absurd hp.eq_nil (List.cons_ne_nil _ _)
  | p :: t1, q :: t2, hp, h1, h2, hn => by
    rcases List.pairwise_cons.mp h1 with ⟨hp1, hpw1⟩
    rcases List.pairwise_cons.mp h2 with ⟨hq1, hpw2⟩
    simp only [List.map_cons] at hn
    rcases List.nodup_cons.mp hn with ⟨hpn, htn⟩
    have hqmem : q ∈ p :: t1 := hp.mem_iff.mpr (List.mem_cons_self q t2)
    have hpmem : p ∈ q :: t2 := hp.mem_iff.mp (List.mem_cons_self p t1)
    have hpq : keyLe p.1 q.1 = true := by
      rcases List.mem_cons.mp hqmem with h | h
      · rw [h]
        exact keyLe_refl _
      · exact hp1 q h
    have hqp : keyLe q.1 p.1 = true := by
      rcases List.mem_cons.mp hpmem with h | h
      · rw [h]
        exact keyLe_refl _
      · exact hq1 p h
    have hkey : p.1 = q.1 := keyLe_antisymm _ _ hpq hqp
    have hhead : q = p := by
      rcases List.mem_cons.mp hqmem with h | h
      · exact h
      · exact absurd (hkey ▸ List.mem_map_of_mem Prod.fst h) hpn
    subst hhead
    rw [sorted_perm_nodup_eq t1 t2 hp.cons_inv hpw1 hpw2 htn]

mutual
/-- `normalizeObject` of `MerkleTree.js`: non-objects pass through, array
elements are normalized in place, and an object is rebuilt over its sorted
keys with normalized values.  The source sorts the keys first and then
normalizes each value; since sorting touches only keys and normalization only
values, normalizing the values first and then sorting (as here, for
structural recursion) rebuilds the same object. -/
def normalizeObject : JsVal → JsVal
  | .str s => .str s
  | .num n => .num n
  | .bool b => .bool b
  | .null => .null
  | .arr l => .arr (normalizeList l)
  | .obj fs => .obj (sortPairs (normalizeFields fs))
termination_by structural v => v

def normalizeList : List JsVal → List JsVal
  | [] => []
  | v :: vs => normalizeObject v :: normalizeList vs
termination_by structural l => l

def normalizeFields : List (String × JsVal) → List (String × JsVal)
  | [] => []
  | (k, v) :: fs => (k, normalizeObject v) :: normalizeFields fs
termination_by structural l => l
end

mutual
/-- Equality of JSON values up to the order of object keys: object field
lists may be reordered (their keys, as in any JavaScript object literal,
being distinct), while array order and all atoms are preserved. -/
inductive KeyPerm : JsVal → JsVal → Prop where
  | str (s : String) : KeyPerm (.str s) (.str s)
  | num (n : Nat) : KeyPerm (.num n) (.num n)
  | bool (b : Bool) : KeyPerm (.bool b) (.bool b)
  | null : KeyPerm .null .null
  | arr {l1 l2 : List JsVal} : KeyPermList l1 l2 → KeyPerm (.arr l1) (.arr l2)
  | obj {fs1 fs2 fs3 : List (String × JsVal)} : KeyPermFields fs1 fs2 →
      fs2.Perm fs3 → (fs1.map Prod.fst).Nodup → KeyPerm (.obj fs1) (.obj fs3)

inductive KeyPermList : List JsVal → List JsVal → Prop where
  | nil : KeyPermList [] []
  | cons {v w : JsVal} {vs ws : List JsVal} : KeyPerm v w → KeyPermList vs ws →
      KeyPermList (v :: vs) (w :: ws)

inductive KeyPermFields : List (String × JsVal) → List (String × JsVal) → Prop where
  | nil : KeyPermFields [] []
  | cons (k : String) {v w : JsVal} {fs gs : List (String × JsVal)} : KeyPerm v w →
      KeyPermFields fs gs → KeyPermFields ((k, v) :: fs) ((k, w) :: gs)
end

theorem normalizeFields_eq_map :
    ∀ fs, normalizeFields fs = fs.map (fun p => (p.1, normalizeObject p.2))
  | [] => rfl
  | (k, v) :: fs => by
    rw [normalizeFields, List.map_cons, normalizeFields_eq_map fs]

theorem keyPermFields_keys : ∀ {fs gs}, KeyPermFields fs gs →
    fs.map Prod.fst = gs.map Prod.fst
  | [], _, h => by cases h; rfl
  | _ :: _, _, h => by
    cases h with
    | cons k hv hfs =>
      simp only [List.map_cons]
      rw [keyPermFields_keys hfs]

theorem normalize_keyPerm_master : ∀ n : Nat,
    (∀ v w : JsVal, sizeOf v ≤ n → KeyPerm v w →
      normalizeObject v = normalizeObject w) ∧
    (∀ l1 l2 : List JsVal, sizeOf l1 ≤ n → KeyPermList l1 l2 →
      normalizeList l1 = normalizeList l2) ∧
    (∀ fs gs : List (String × JsVal), sizeOf fs ≤ n → KeyPermFields fs gs →
      normalizeFields fs = normalizeFields gs) := by
  intro n
  induction n using Nat.strong_induction_on with
  | _ n ih =>
  refine ⟨?_, ?_, ?_⟩
  · intro v w hsz hkp
    cases hkp with
    | str s => rfl
    | num m => rfl
    | bool b => rfl
    | null => rfl
    | arr hl =>
      rename_i l1 l2
      have hlt : sizeOf l1 < n := by
        have h2 : sizeOf l1 < sizeOf (JsVal.arr l1) := by
          simp only [JsVal.arr.sizeOf_spec]
          omega
        omega
      have heq := (ih (sizeOf l1) hlt).2.1 l1 l2 (le_refl _) hl
      show JsVal.arr (normalizeList l1) = JsVal.arr (normalizeList l2)
      rw [heq]
    | obj hf hperm hnodup =>
      rename_i fs1 fs2 fs3
      have hlt : sizeOf fs1 < n := by
        have h2 : sizeOf fs1 < sizeOf (JsVal.obj fs1) := by
          simp only [JsVal.obj.sizeOf_spec]
          omega
        omega
      have h12 : normalizeFields fs1 = normalizeFields fs2 :=
        (ih (sizeOf fs1) hlt).2.2 fs1 fs2 (le_refl _) hf
      have h23 : (normalizeFields fs2).Perm (normalizeFields fs3) := by
        rw [normalizeFields_eq_map, normalizeFields_eq_map]
        exact hperm.map _
      have h13 : (normalizeFields fs1).Perm (normalizeFields fs3) := by
        rw [h12]
        exact h23
      have hkeys1 : (normalizeFields fs1).map Prod.fst = fs1.map Prod.fst := by
        rw [normalizeFields_eq_map, List.map_map]
        rfl
      have hnodup1 : ((sortPairs (normalizeFields fs1)).map Prod.fst).Nodup := by
        have hperm1 : ((sortPairs (normalizeFields fs1)).map Prod.fst).Perm
            ((normalizeFields fs1).map Prod.fst) := (sortPairs_perm _).map _
        rw [hkeys1] at hperm1
        exact hperm1.nodup_iff.mpr hnodup
      have hsp : (sortPairs (normalizeFields fs1)).Perm (sortPairs (normalizeFields fs3)) :=
        ((sortPairs_perm (normalizeFields fs1)).trans h13).trans
          (sortPairs_perm (normalizeFields fs3)).symm
      have hfin := sorted_perm_nodup_eq _ _ hsp (sortPairs_pairwise _)
        (sortPairs_pairwise _) hnodup1
      show JsVal.obj (sortPairs (normalizeFields fs1)) =
        JsVal.obj (sortPairs (normalizeFields fs3))
      rw [hfin]
  · intro l1 l2 hsz hkp
    cases hkp with
    | nil => rfl
    | cons hv hvs =>
      rename_i v w vs ws
      have hv2 : sizeOf v < n := by
        have h2 : sizeOf v < sizeOf (v :: vs) := by
          simp only [List.cons.sizeOf_spec]
          omega
        omega
      have hvs2 : sizeOf vs < n := by
        have h2 : sizeOf vs < sizeOf (v :: vs) := by
          simp only [List.cons.sizeOf_spec]
          omega
        omega
      have h1 := (ih _ hv2).1 v w (le_refl _) hv
      have h2 := (ih _ hvs2).2.1 vs ws (le_refl _) hvs
      show normalizeObject v :: normalizeList vs = normalizeObject w :: normalizeList ws
      rw [h1, h2]
  · intro fs gs hsz hkp
    cases hkp with
    | nil => rfl
    | cons k hv hfs =>
      rename_i v w fs2 gs2
      have hv2 : sizeOf v < n := by
        have h2 : sizeOf v < sizeOf ((k, v) :: fs2) := by
          simp only [List.cons.sizeOf_spec, Prod.mk.sizeOf_spec]
          omega
        omega
      have hfs2 : sizeOf fs2 < n := by
        have h2 : sizeOf fs2 < sizeOf ((k, v) :: fs2) := by
          simp only [List.cons.sizeOf_spec]
          omega
        omega
      have h1 := (ih _ hv2).1 v w (le_refl _) hv
      have h2 := (ih _ hfs2).2.2 fs2 gs2 (le_refl _) hfs
      show (k, normalizeObject v) :: normalizeFields fs2 =
        (k, normalizeObject w) :: normalizeFields gs2
      rw [h1, h2]

theorem normalizeObject_keyPerm {v w : JsVal} (h : KeyPerm v w) :
    normalizeObject v = normalizeObject w :=
  (normalize_keyPerm_master (sizeOf v)).1 v w (le_refl _) h

/-- The MerkleEngine `hash` method on an object item: SHA-256 of the
`JSON.stringify` of the key-normalized object. -/
def engineItemHash (h : String → String) (v : JsVal) : String :=
  h (stringifyJs (normalizeObject v))

/-- Two stored transactions that agree on every field, with the `data`
payloads equal up to object key order. -/
def TxnKeyPerm (t1 t2 : Txn) : Prop :=
  t1.fromAddr = t2.fromAddr ∧ t1.toAddr = t2.toAddr ∧ KeyPerm t1.data t2.data ∧
  t1.timestamp = t2.timestamp ∧ t1.id = t2.id

theorem normalizeMap_keyPermList {h : String → String} :
    ∀ {vs ws : List JsVal}, KeyPermList vs ws →
      vs.map (engineItemHash h) = ws.map (engineItemHash h)
  | [], _, hk => by cases hk; rfl
  | v :: vs, _, hk => by
    cases hk with
    | cons hv hvs =>
      rename_i w ws
      simp only [List.map_cons]
      have hhead : engineItemHash h v = engineItemHash h w := by
        unfold engineItemHash
        rw [normalizeObject_keyPerm hv]
      rw [hhead, normalizeMap_keyPermList hvs]

/-- A transaction whose `data` object lists key `"a"` before `"b"`. -/
def txKeyA : Txn := ⟨"alice", "bob", .obj [("a", .num 1), ("b", .num 2)], 7, "idA"⟩

/-- The same transaction with the two `data` keys in the opposite order. -/
def txKeyB : Txn := ⟨"alice", "bob", .obj [("b", .num 2), ("a", .num 1)], 7, "idA"⟩

/-- C10: the Ledger Merkle root is sensitive to object key order — two
transaction lists equal up to key order of their `data` objects (here
`{a:1,b:2}` vs `{b:2,a:1}`) produce different roots — while the MerkleEngine
root over key-reordered items is unchanged, because `normalizeObject` sorts
keys recursively before hashing. -/
theorem ledgerVsEngineKeyOrder (h : String → String)
    (vs ws : List JsVal) (hvw : KeyPermList vs ws) :
    (buildTree (engineItemHash h) h vs).root = (buildTree (engineItemHash h) h ws).root ∧
    ∃ t1 t2 : Txn, TxnKeyPerm t1 t2 ∧
      calculateMerkleRoot [t1] ≠ calculateMerkleRoot [t2] := by
  constructor
  · have hmap := normalizeMap_keyPermList (h := h) hvw
    cases hvw with
    | nil => rfl
    | cons hv hvs =>
      rename_i v w vs2 ws2
      show rootOfLevels (buildLevels h (List.map (engineItemHash h) (v :: vs2))) =
        rootOfLevels (buildLevels h (List.map (engineItemHash h) (w :: ws2)))
      rw [hmap]
  · refine ⟨txKeyA, txKeyB, ⟨rfl, rfl, ?_, rfl, rfl⟩, ?_⟩
    · exact KeyPerm.obj (KeyPermFields.cons "a" (KeyPerm.num 1)
        (KeyPermFields.cons "b" (KeyPerm.num 2) KeyPermFields.nil))
        (List.Perm.swap ("b", JsVal.num 2) ("a", JsVal.num 1) [])
        (by decide)
    · decide

/-- Witness for C10: a concrete key-reordered pair of one-element item lists
on which the MerkleEngine roots agree while the Ledger roots differ. -/
theorem ledgerVsEngineKeyOrderWitness :
    (buildTree (engineItemHash constDigestA) constDigestA
        [JsVal.obj [("a", .num 1), ("b", .num 2)]]).root =
      (buildTree (engineItemHash constDigestA) constDigestA
        [JsVal.obj [("b", .num 2), ("a", .num 1)]]).root ∧
    ∃ t1 t2 : Txn, TxnKeyPerm t1 t2 ∧
      calculateMerkleRoot [t1] ≠ calculateMerkleRoot [t2] :=
  ledgerVsEngineKeyOrder constDigestA
    [JsVal.obj [("a", .num 1), ("b", .num 2)]] [JsVal.obj [("b", .num 2), ("a", .num 1)]]
    (KeyPermList.cons (KeyPerm.obj (KeyPermFields.cons "a" (KeyPerm.num 1)
        (KeyPermFields.cons "b" (KeyPerm.num 2) KeyPermFields.nil))
        (List.Perm.swap ("b", JsVal.num 2) ("a", JsVal.num 1) [])
        (by decide)) KeyPermList.nil)

/-- `Map.get` on a JavaScript `Map` modeled as an association list in
insertion order. -/
def alookup {β : Type} : List (String × β) → String → Option β
  | [], _ => none
  | (k, v) :: rest, key => if k = key then some v else alookup rest key

/-- `Map.set`: overwrite in place if the key exists, append otherwise. -/
def aset {β : Type} : List (String × β) → String → β → List (String × β)
  | [], key, v => [(key, v)]
  | (k, w) :: rest, key, v =>
    if k = key then (key, v) :: rest else (k, w) :: aset rest key v

theorem alookup_aset_self {β : Type} :
    ∀ (l : List (String × β)) (key : String) (v : β), alookup (aset l key v) key = some v
  | [], key, v => by
    rw [aset, alookup, if_pos rfl]
  | (k, w) :: rest, key, v => by
    rw [aset]
    by_cases h : k = key
    · rw [if_pos h, alookup, if_pos rfl]
    · rw [if_neg h, alookup, if_neg h]
      exact alookup_aset_self rest key v

/-- `this.consensusThreshold = 0.67`. -/
def consensusThreshold : ℚ := 67 / 100

/-- The quorum comparison `yesVotes / nodeCount >= this.consensusThreshold`,
with the division read exactly over ℚ. -/
def quorumOf (yes cnt : Nat) : Bool :=
  decide (consensusThreshold ≤ (yes : ℚ) / (cnt : ℚ))

theorem quorumOf_iff {yes cnt : Nat} (hc : 0 < cnt) :
    quorumOf yes cnt = true ↔ 67 * cnt ≤ 100 * yes := by
  rw [quorumOf, decide_eq_true_eq, consensusThreshold]
  rw [div_le_div_iff (by norm_num) (by exact_mod_cast hc)]
  constructor
  · intro h
    have h2 : (67 : ℚ) * cnt ≤ 100 * yes := by linarith
    exact_mod_cast h2
  · intro h
    have h2 : (67 : ℚ) * cnt ≤ 100 * yes := by exact_mod_cast h
    linarith

theorem quorumOf_two_three : quorumOf 2 3 = false := by
  rw [quorumOf, decide_eq_false_iff_not, consensusThreshold]
  intro h
  rw [div_le_div_iff (by norm_num) (by norm_num)] at h
  norm_num at h

theorem quorumOf_one_one : quorumOf 1 1 = true := by
  rw [quorumOf, decide_eq_true_eq, consensusThreshold]
  norm_num

/-- The state of a `ConsensusEngine`: the node identity and registered node
count from the `NodeManager`, the underlying `Blockchain`, the
`pendingValidations` proposal map and the `votes` map of per-node yes/no
votes. -/
structure ConsState where
  nodeId : String
  nodeCount : Nat
  ledger : LedgerState
  proposals : List (String × Block)
  votes : List (String × List (String × Bool))

inductive ConsErr where
  | required
  | notFound
  | typeError
  | duplicate
  | invalidYes
  | emptyTxs
  | invalidTx
  | noTxs
deriving DecidableEq, Repr

/-- `validateBlockProposal(blockProposal)`.  The structural truthiness checks
read: `index` is always present on a shaped proposal, `!timestamp` is
`timestamp = 0`, `transactions` (an array) and `merkleRoot` (a nonempty hex
string, modeled by `HashV`) are always truthy, `!previousHash` and `!hash`
are emptiness tests.  An `index ≥ chain length` proposal compares
`previousHash` against `getLatestBlock().hash`, which on an empty chain is a
thrown `TypeError` (`.error ()`); both already-mined branches of the source
fall through to `return true`. -/
def validateBlockProposalE (led : LedgerState) (b : Block) : Except Unit Bool :=
  if b.timestamp = 0 ∨ b.previousHash = "" ∨ b.hash = "" then .ok false
  else if b.transactions.any (fun tx => !isValidTransaction tx) then .ok false
  else if b.merkleRoot ≠ calculateMerkleRoot b.transactions then .ok false
  else if b.index ≥ led.chain.length then
    match led.chain.getLast? with
    | none => .error ()
    | some latest => if b.previousHash ≠ latest.hash then .ok false else .ok true
  else .ok true

/-- The vote object returned by `voteOnBlock`, together with the consensus
summary merged into it (`mined` is the block of a successful
consensus-triggered mine). -/
structure VoteResult where
  nodeId : String
  blockHash : String
  isValid : Bool
  consensusReached : Bool
  mined : Option Block
  totalVotes : Nat
  yesVotes : Nat
  totalNodes : Nat

/-- `voteOnBlock(blockHash, isValid)`.  Checks run in source order: falsy
`blockHash`, unknown proposal, the `votes.get(blockHash)` map (a `TypeError`
if missing), duplicate vote, then validation of a yes vote.  The vote is then
recorded; if quorum is reached on a yes vote, the proposal is re-validated
and mined inside `try/catch`, a mining failure leaving the recorded vote in
place. -/
def voteOnBlock (bhf : BlockHashFn) (fuel now : Nat) (cs : ConsState)
    (blockHash : String) (isValid : Bool) : Except ConsErr (VoteResult × ConsState) :=
  if blockHash = "" then .error .required
  else
    match alookup cs.proposals blockHash with
    | none => .error .notFound
    | some proposal =>
      match alookup cs.votes blockHash with
      | none => .error .typeError
      | some votesMap =>
        if (alookup votesMap cs.nodeId).isSome then .error .duplicate
        else
          match (if isValid then validateBlockProposalE cs.ledger proposal
                 else .ok true) with
          | .error () => .error .typeError
          | .ok false => .error .invalidYes
          | .ok true =>
            let votesMap2 := aset votesMap cs.nodeId isValid
            let cs2 : ConsState := { cs with votes := aset cs.votes blockHash votesMap2 }
            let voteCount := votesMap2.length
            let yes := (votesMap2.filter (fun p => p.2)).length
            let reached := quorumOf yes cs.nodeCount
            if reached && isValid then
              match validateBlockProposalE cs2.ledger proposal with
              | .ok true =>
                match minePendingTransactions bhf fuel now cs2.ledger with
                | .ok (b, led2) =>
                  .ok (⟨cs.nodeId, blockHash, isValid, true, some b,
                        voteCount, yes, cs.nodeCount⟩, { cs2 with ledger := led2 })
                | .error _ =>
                  .ok (⟨cs.nodeId, blockHash, isValid, reached, none,
                        voteCount, yes, cs.nodeCount⟩, cs2)
              | _ =>
                .ok (⟨cs.nodeId, blockHash, isValid, reached, none,
                      voteCount, yes, cs.nodeCount⟩, cs2)
            else
              .ok (⟨cs.nodeId, blockHash, isValid, reached, none,
                    voteCount, yes, cs.nodeCount⟩, cs2)

/-- The object returned by `checkConsensus`: either one of its two
error-shaped results or the consensus summary. -/
inductive CheckResult where
  | notFound
  | noVotes
  | status (consensusReached : Bool) (totalVotes yesVotes totalNodes : Nat)

/-- `checkConsensus(blockHash)`. -/
def checkConsensus (cs : ConsState) (blockHash : String) : Except ConsErr CheckResult :=
  if blockHash = "" then .error .required
  else
    match alookup cs.proposals blockHash with
    | none => .ok .notFound
    | some _ =>
      match alookup cs.votes blockHash with
      | none => .ok .noVotes
      | some votesMap =>
        let yes := (votesMap.filter (fun p => p.2)).length
        .ok (.status (quorumOf yes cs.nodeCount) votesMap.length yes cs.nodeCount)

/-- The duplicate test of `proposeBlock`: the pool already holds a
transaction with the same `id`, or with the same `from`/`to` and
`JSON.stringify`-equal `data`. -/
def txExistsIn (pending : List Txn) (tx : Txn) : Bool :=
  pending.any (fun pt => pt.id == tx.id ||
    (pt.fromAddr == tx.fromAddr && pt.toAddr == tx.toAddr &&
      stringifyJs pt.data == stringifyJs tx.data))

/-- The pre-proposal loop of `proposeBlock`: each provided transaction not
already pooled is offered to `addTransaction`, whose failure is swallowed.
`mkId i` is the id generated for the `i`-th added transaction. -/
def proposeAddAll (now : Nat) (mkId : Nat → String) :
    Nat → LedgerState → List Txn → LedgerState
  | _, led, [] => led
  | i, led, tx :: rest =>
    let led2 :=
      if txExistsIn led.pending tx then led
      else
        match addTransaction now (mkId i) led tx with
        | .ok (_, l2) => l2
        | .error _ => led
    proposeAddAll now mkId (i + 1) led2 rest

/-- The result object of `proposeBlock` (summary fields only). -/
structure ProposeResult where
  success : Bool
  consensusReached : Bool
  blockHash : String
  totalVotes : Nat
  yesVotes : Nat
  totalNodes : Nat

/-- `proposeBlock(transactions)`: rejects an empty or invalid transaction
list, merges the provided transactions into the pool, builds the proposal
block over the pool snapshot, stores it, auto-votes yes when it validates
(re-raising every voting error except the duplicate-vote one), and reports
whether the quorum comparison already holds. -/
def proposeBlock (bhf : BlockHashFn) (fuel now : Nat) (mkId : Nat → String)
    (cs : ConsState) (txs : List Txn) : Except ConsErr (ProposeResult × ConsState) :=
  if txs.isEmpty then .error .emptyTxs
  else if txs.any (fun tx => !isValidTransaction tx) then .error .invalidTx
  else
    let led2 := proposeAddAll now mkId 0 cs.ledger txs
    let pendingTxs := if led2.pending.length > 0 then led2.pending else txs
    if pendingTxs.isEmpty then .error .noTxs
    else
      match led2.chain.getLast? with
      | none => .error .typeError
      | some latest =>
        let mroot := calculateMerkleRoot pendingTxs
        let bHash := bhf led2.chain.length now pendingTxs latest.hash 0 mroot
        let prop : Block := ⟨led2.chain.length, now, pendingTxs, latest.hash, bHash, 0, mroot⟩
        let cs2 : ConsState := { cs with
          ledger := led2,
          proposals := aset cs.proposals bHash prop,
          votes := aset cs.votes bHash [] }
        match validateBlockProposalE cs2.ledger prop with
        | .error () => .error .typeError
        | .ok vOk =>
          match (if vOk then
                  match voteOnBlock bhf fuel now cs2 bHash true with
                  | .ok (_, cs3) => .ok cs3
                  | .error .duplicate => .ok cs2
                  | .error e => .error e
                else .ok cs2 : Except ConsErr ConsState) with
          | .error e => .error e
          | .ok cs3 =>
            let votesMap := (alookup cs3.votes bHash).getD []
            let yes := (votesMap.filter (fun p => p.2)).length
            .ok (⟨true, quorumOf yes cs.nodeCount, bHash, votesMap.length, yes,
                  cs.nodeCount⟩, cs3)

/-- The result object of `syncChain` (`newChainLength` and `chainReplaced`
are present only on some branches). -/
structure SyncResult where
  success : Bool
  synced : Bool
  localChainLength : Nat
  newChainLength : Option Nat
  chainReplaced : Option Bool
  chainValid : Bool

/-- The per-block loop of `validateChain` from index 1 up. -/
def chainLinksOk : Block → List Block → Bool
  | _, [] => true
  | prev, cur :: rest =>
    (cur.previousHash == prev.hash && (cur.hash != "" && cur.hash.length == 64)) &&
      chainLinksOk cur rest

/-- `validateChain(chain)` of the ConsensusEngine: lightweight per-block
checks only — genesis index and hash presence, `previousHash` linkage, and a
64-character truthy `hash` — with no hash recomputation. -/
def validateChain (chain : List Block) : Bool :=
  match chain with
  | [] => false
  | g :: rest => (g.index == 0 && g.hash != "") && chainLinksOk g rest

/-- The candidate loop of `syncChain`: accumulates the longest length seen
(counting invalid candidates too), and whether any candidate failed
`validateChain`. -/
def syncLoop : List Block → Nat → Bool → List (List Block) → List Block × Nat × Bool
  | longest, len, found, [] => (longest, len, found)
  | longest, len, found, c :: rest =>
    if validateChain c = false then
      syncLoop longest (if c.length > len then c.length else len) true rest
    else if c.length > len then syncLoop c c.length found rest
    else syncLoop longest len found rest

/-- `syncChain(networkChains)`.  Without candidates it reports the local
chain's full validity; with candidates it runs the loop and reports, never
assigning the blockchain state (the returned ledger is the argument on every
path). -/
def syncChain (bhf : BlockHashFn) (led : LedgerState)
    (networkChains : Option (List (List Block))) : SyncResult × LedgerState :=
  let localLen := led.chain.length
  match networkChains with
  | none => (⟨true, true, localLen, none, none, isChainValid bhf led.chain⟩, led)
  | some [] => (⟨true, true, localLen, none, none, isChainValid bhf led.chain⟩, led)
  | some chains =>
    match syncLoop led.chain localLen false chains with
    | (_, longestLength, found) =>
      if found && decide (longestLength > localLen) then
        (⟨false, false, localLen, none, none, false⟩, led)
      else if decide (longestLength > localLen) && !found then
        (⟨true, true, localLen, some longestLength, some true, true⟩, led)
      else
        (⟨true, true, localLen, none, some false, !found⟩, led)

theorem ite_gt_eq_max (a b : Nat) : (if a > b then a else b) = max b a := by
  by_cases h : a > b
  · rw [if_pos h]
    omega
  · rw [if_neg h]
    omega

theorem syncLoop_spec :
    ∀ (chains : List (List Block)) (longest : List Block) (len : Nat) (found : Bool),
      (syncLoop longest len found chains).2.1 =
        chains.foldl (fun a c => max a c.length) len ∧
      (syncLoop longest len found chains).2.2 =
        (found || chains.any (fun c => !validateChain c))
  | [], longest, len, found => by
    rw [syncLoop]
    simp
  | c :: rest, longest, len, found => by
    rw [syncLoop]
    by_cases hv : validateChain c = false
    · rw [if_pos hv]
      obtain ⟨h1, h2⟩ :=
        syncLoop_spec rest longest (if c.length > len then c.length else len) true
      refine ⟨?_, ?_⟩
      · rw [h1, List.foldl_cons, ite_gt_eq_max]
      · rw [h2, List.any_cons, hv]
        simp
    · have hv2 : validateChain c = true := by
        cases hcv : validateChain c
        · exact absurd hcv hv
        · rfl
      rw [if_neg hv]
      by_cases hl : c.length > len
      · rw [if_pos hl]
        obtain ⟨h1, h2⟩ := syncLoop_spec rest c c.length found
        refine ⟨?_, ?_⟩
        · rw [h1, List.foldl_cons]
          congr 1
          omega
        · rw [h2, List.any_cons, hv2]
          simp
      · rw [if_neg hl]
        obtain ⟨h1, h2⟩ := syncLoop_spec rest longest len found
        refine ⟨?_, ?_⟩
        · rw [h1, List.foldl_cons]
          congr 1
          omega
        · rw [h2, List.any_cons, hv2]
          simp

def hash64a : String := String.mk (List.replicate 64 'a')

def hash64b : String := String.mk (List.replicate 64 'b')

def hash64c : String := String.mk (List.replicate 64 'c')

/-- A three-block chain that passes the lightweight `validateChain` (its
hashes are 64-character strings and linked) but fails the full
`isChainValid` recomputation. -/
def syncCandGood : List Block := [⟨0, 1, [], "0", hash64a, 0, .sha ""⟩,
  ⟨1, 1, [], hash64a, hash64b, 0, .sha ""⟩, ⟨2, 1, [], hash64b, hash64c, 0, .sha ""⟩]

/-- A one-block candidate whose genesis has a nonzero index, failing
`validateChain`. -/
def syncCandBad : List Block := [⟨1, 1, [], hash64a, hash64b, 0, .sha ""⟩]

def ledSync : LedgerState := ⟨[wGenesis], []⟩

/-- C6 (amended): `syncChain` never assigns the local chain state, and with a
non-empty candidate list its behavior is: any invalid candidate suppresses
selection entirely, and it reports failure with `chainValid:false` whenever
an invalid candidate was seen and the running longest length — which counts
the lengths of invalid candidates too — exceeds the local length, even if a
longer fully-validating candidate exists; only when every candidate passes
the lightweight `validateChain` does it report (without performing) adoption
of the longest candidate; when nothing exceeds the local length it reports
the local chain up to date.  `validateChain` is provably lighter than full
validation: a chain can pass it while failing `isChainValid`. -/
theorem consensusSyncChainSpec (bhf : BlockHashFn) (led : LedgerState)
    (chains : List (List Block)) (hne : chains ≠ []) :
    (∀ nc, (syncChain bhf led nc).2 = led) ∧
    (chains.any (fun c => !validateChain c) = true →
      chains.foldl (fun a c => max a c.length) led.chain.length > led.chain.length →
      (syncChain bhf led (some chains)).1 =
        ⟨false, false, led.chain.length, none, none, false⟩) ∧
    (chains.any (fun c => !validateChain c) = false →
      chains.foldl (fun a c => max a c.length) led.chain.length > led.chain.length →
      (syncChain bhf led (some chains)).1 =
        ⟨true, true, led.chain.length,
          some (chains.foldl (fun a c => max a c.length) led.chain.length), some true, true⟩) ∧
    (¬ chains.foldl (fun a c => max a c.length) led.chain.length > led.chain.length →
      (syncChain bhf led (some chains)).1 =
        ⟨true, true, led.chain.length, none, some false,
          !(chains.any (fun c => !validateChain c))⟩) ∧
    (∃ c : List Block, validateChain c = true ∧ isChainValid bhConst c = false) := by
  refine ⟨?_, ?_, ?_, ?_, ?_⟩
  · intro nc
    cases nc with
    | none => rfl
    | some l =>
      cases l with
      | nil => rfl
      | cons c cr =>
        dsimp only [syncChain]
        rcases hsl : syncLoop led.chain led.chain.length false (c :: cr) with ⟨a, b, f⟩
        dsimp only
        split
        · rfl
        · split <;> rfl
  · intro hinv hgt
    cases chains with
    | nil => exact absurd rfl hne
    | cons c cr =>
      obtain ⟨h1, h2⟩ := syncLoop_spec (c :: cr) led.chain led.chain.length false
      rcases hsl : syncLoop led.chain led.chain.length false (c :: cr) with ⟨a, b, f⟩
      rw [hsl] at h1 h2
      dsimp only at h1 h2
      rw [Bool.false_or] at h2
      dsimp only [syncChain]
      rw [hsl]
      dsimp only
      rw [h2, hinv, h1, decide_eq_true hgt]
      rfl
  · intro hinv hgt
    cases chains with
    | nil => exact absurd rfl hne
    | cons c cr =>
      obtain ⟨h1, h2⟩ := syncLoop_spec (c :: cr) led.chain led.chain.length false
      rcases hsl : syncLoop led.chain led.chain.length false (c :: cr) with ⟨a, b, f⟩
      rw [hsl] at h1 h2
      dsimp only at h1 h2
      rw [Bool.false_or] at h2
      dsimp only [syncChain]
      rw [hsl]
      dsimp only
      rw [h2, hinv, h1, decide_eq_true hgt]
      rfl
  · intro hgt
    cases chains with
    | nil => exact absurd rfl hne
    | cons c cr =>
      obtain ⟨h1, h2⟩ := syncLoop_spec (c :: cr) led.chain led.chain.length false
      rcases hsl : syncLoop led.chain led.chain.length false (c :: cr) with ⟨a, b, f⟩
      rw [hsl] at h1 h2
      dsimp only at h1 h2
      rw [Bool.false_or] at h2
      dsimp only [syncChain]
      rw [hsl]
      dsimp only
      rw [h1, decide_eq_false hgt, Bool.and_false, Bool.false_and, h2]
      rfl
  · exact ⟨syncCandGood, by decide, by decide⟩

/-- Counterexample to C6 as stated: among the candidates there is a longer
chain that validates, yet because another candidate is invalid the sync
reports failure with `chainValid:false` and performs no selection. -/
theorem consensusSyncMixedCounterexample :
    validateChain syncCandGood = true ∧
    syncCandGood.length > ledSync.chain.length ∧
    validateChain syncCandBad = false ∧
    (syncChain bhConst ledSync (some [syncCandGood, syncCandBad])).1 =
      ⟨false, false, 1, none, none, false⟩ ∧
    (syncChain bhConst ledSync (some [syncCandGood, syncCandBad])).2 = ledSync :=
  ⟨by decide, by decide, by decide, rfl, rfl⟩

/-- Witness for C6: the characterization applied to the concrete mixed
candidate list. -/
theorem consensusSyncChainSpecWitness :
    (syncChain bhConst ledSync none).2 = ledSync ∧
    (syncChain bhConst ledSync (some [syncCandGood, syncCandBad])).1 =
      ⟨false, false, ledSync.chain.length, none, none, false⟩ :=
  ⟨(consensusSyncChainSpec bhConst ledSync [syncCandGood, syncCandBad]
      (List.cons_ne_nil _ _)).1 none,
   (consensusSyncChainSpec bhConst ledSync [syncCandGood, syncCandBad]
      (List.cons_ne_nil _ _)).2.1 (by decide) (by decide)⟩

/-- C7: with a truthy block hash, `voteOnBlock` fails `notFound` on an
unknown proposal, `duplicate` when this node has already voted on it, and
`invalidYes` when casting a yes vote on a proposal that fails
`validateBlockProposal`; in every other case it returns normally with the
vote recorded in the votes map under this node's id — in particular, when
quorum triggers mining and the mining fails, the recorded vote remains. -/
theorem consensusVoteSpec (bhf : BlockHashFn) (fuel now : Nat) (cs : ConsState)
    (blockHash : String) (isValid : Bool) (hbh : ¬ blockHash = "") :
    (alookup cs.proposals blockHash = none →
      voteOnBlock bhf fuel now cs blockHash isValid = .error .notFound) ∧
    (∀ prop vm, alookup cs.proposals blockHash = some prop →
      alookup cs.votes blockHash = some vm →
      (alookup vm cs.nodeId).isSome = true →
      voteOnBlock bhf fuel now cs blockHash isValid = .error .duplicate) ∧
    (∀ prop vm, alookup cs.proposals blockHash = some prop →
      alookup cs.votes blockHash = some vm →
      alookup vm cs.nodeId = none → isValid = true →
      validateBlockProposalE cs.ledger prop = .ok false →
      voteOnBlock bhf fuel now cs blockHash isValid = .error .invalidYes) ∧
    (∀ prop vm, alookup cs.proposals blockHash = some prop →
      alookup cs.votes blockHash = some vm →
      alookup vm cs.nodeId = none →
      (isValid = true → validateBlockProposalE cs.ledger prop = .ok true) →
      ∃ r cs2, voteOnBlock bhf fuel now cs blockHash isValid = .ok (r, cs2) ∧
        alookup cs2.votes blockHash = some (aset vm cs.nodeId isValid) ∧
        alookup (aset vm cs.nodeId isValid) cs.nodeId = some isValid) := by
  refine ⟨?_, ?_, ?_, ?_⟩
  · intro hnone
    rw [voteOnBlock, if_neg hbh, hnone]
  · intro prop vm hprop hvm hdup
    rw [voteOnBlock, if_neg hbh, hprop]
    dsimp only
    rw [hvm]
    dsimp only
    rw [hdup, if_pos rfl]
  · intro prop vm hprop hvm hdn hiv hval
    rw [voteOnBlock, if_neg hbh, hprop]
    dsimp only
    rw [hvm]
    dsimp only
    rw [hdn, Option.isSome_none, if_neg (by decide), hiv, if_pos rfl, hval]
  · intro prop vm hprop hvm hdn hval
    rw [voteOnBlock, if_neg hbh, hprop]
    dsimp only
    rw [hvm]
    dsimp only
    rw [hdn, Option.isSome_none, if_neg (by decide)]
    cases isValid with
    | false =>
      rw [if_neg (by decide)]
      dsimp only
      rw [Bool.and_false, if_neg (by decide)]
      exact ⟨_, _, rfl, alookup_aset_self _ _ _, alookup_aset_self _ _ _⟩
    | true =>
      have hv : validateBlockProposalE cs.ledger prop = .ok true := hval rfl
      rw [if_pos rfl, hv]
      dsimp only
      rw [Bool.and_true]
      cases hq : quorumOf ((aset vm cs.nodeId true).filter (fun p => p.2)).length
          cs.nodeCount with
      | false =>
        rw [if_neg (by decide)]
        exact ⟨_, _, rfl, alookup_aset_self _ _ _, alookup_aset_self _ _ _⟩
      | true =>
        rw [if_pos rfl]
        cases hm : minePendingTransactions bhf fuel now cs.ledger with
        | ok p =>
          rcases p with ⟨b, led2⟩
          dsimp only
          exact ⟨_, _, rfl, alookup_aset_self _ _ _, alookup_aset_self _ _ _⟩
        | error e =>
          dsimp only
          exact ⟨_, _, rfl, alookup_aset_self _ _ _, alookup_aset_self _ _ _⟩

/-- A valid next-block proposal over the one-block witness chain. -/
def propV : Block := ⟨1, 5, [wT1], "gen", "00bb", 0, calculateMerkleRoot [wT1]⟩

/-- A consensus state with one registered node, the genesis chain, an empty
pending pool, the proposal `propV` stored under hash `h1`, and no votes yet:
a yes vote reaches quorum, triggers mining, and the mining fails on the
empty pool. -/
def csV : ConsState := ⟨"node1", 1, ⟨[wGenesis], []⟩, [("h1", propV)], [("h1", [])]⟩

/-- Witness for C7: on the concrete state, voting on an unknown hash fails
`notFound`, and a yes vote on `h1` — which reaches quorum and whose
triggered mining fails on the empty pool — returns normally with the vote
still recorded in the votes map. -/
theorem consensusVoteSpecWitness :
    voteOnBlock bhConst 9 2 csV "zz" true = .error .notFound ∧
    ∃ r cs2, voteOnBlock bhConst 9 2 csV "h1" true = .ok (r, cs2) ∧
      alookup cs2.votes "h1" = some (aset [] "node1" true) ∧
      alookup (aset [] "node1" true) "node1" = some true :=
  ⟨(consensusVoteSpec bhConst 9 2 csV "zz" true (by decide)).1 rfl,
   (consensusVoteSpec bhConst 9 2 csV "h1" true (by decide)).2.2.2 propV [] rfl rfl rfl
     (fun _ => rfl)⟩

/-- C4: the quorum comparison is the exact rational test
`yesVotes / nodeCount ≥ 0.67` — equivalently `67·count ≤ 100·yes` for a
positive registered-node count — so 2 yes votes among 3 nodes
(2/3 < 67/100) do not reach consensus; and `checkConsensus`, `voteOnBlock`
and `proposeBlock` all report `consensusReached` as exactly this comparison
applied to the yes-vote count and node count they report. -/
theorem consensusQuorumExact :
    (∀ yes cnt : Nat, 0 < cnt → (quorumOf yes cnt = true ↔ 67 * cnt ≤ 100 * yes)) ∧
    quorumOf 2 3 = false ∧
    (∀ (cs : ConsState) (blockHash : String) (c : Bool) (tv yv tn : Nat),
      checkConsensus cs blockHash = .ok (.status c tv yv tn) →
      c = quorumOf yv tn ∧ tn = cs.nodeCount) ∧
    (∀ (bhf : BlockHashFn) (fuel now : Nat) (cs : ConsState) (blockHash : String)
      (isValid : Bool) (r : VoteResult) (cs2 : ConsState),
      voteOnBlock bhf fuel now cs blockHash isValid = .ok (r, cs2) →
      r.consensusReached = quorumOf r.yesVotes r.totalNodes ∧ r.totalNodes = cs.nodeCount) ∧
    (∀ (bhf : BlockHashFn) (fuel now : Nat) (mkId : Nat → String) (cs : ConsState)
      (txs : List Txn) (r : ProposeResult) (cs2 : ConsState),
      proposeBlock bhf fuel now mkId cs txs = .ok (r, cs2) →
      r.consensusReached = quorumOf r.yesVotes r.totalNodes ∧ r.totalNodes = cs.nodeCount) := by
  refine ⟨fun yes cnt hc => quorumOf_iff hc, quorumOf_two_three, ?_, ?_, ?_⟩
  · intro cs blockHash c tv yv tn h
    rw [checkConsensus] at h
    split at h
    · exact Except.noConfusion h
    · split at h
      · simp only [Except.ok.injEq] at h
        exact CheckResult.noConfusion h
      · split at h
        · simp only [Except.ok.injEq] at h
          exact CheckResult.noConfusion h
        · dsimp only at h
          simp only [Except.ok.injEq, CheckResult.status.injEq] at h
          obtain ⟨h1, h2, h3, h4⟩ := h
          subst h1
          subst h3
          subst h4
          exact ⟨rfl, rfl⟩
  · intro bhf fuel now cs blockHash isValid r cs2 h
    rw [voteOnBlock] at h
    split at h
    · exact Except.noConfusion h
    · split at h
      · exact Except.noConfusion h
      · split at h
        · exact Except.noConfusion h
        · split at h
          · exact Except.noConfusion h
          · split at h
            · exact Except.noConfusion h
            · exact Except.noConfusion h
            · dsimp only at h
              split at h
              · rename_i hcond
                rw [Bool.and_eq_true] at hcond
                have hq := hcond.1
                split at h
                · split at h
                  · simp only [Except.ok.injEq, Prod.mk.injEq] at h
                    obtain ⟨hr, -⟩ := h
                    subst hr
                    exact ⟨hq.symm, rfl⟩
                  · simp only [Except.ok.injEq, Prod.mk.injEq] at h
                    obtain ⟨hr, -⟩ := h
                    subst hr
                    exact ⟨rfl, rfl⟩
                all_goals
                  simp only [Except.ok.injEq, Prod.mk.injEq] at h
                all_goals
                  obtain ⟨hr, -⟩ := h
                all_goals
                  subst hr
                all_goals
                  exact ⟨rfl, rfl⟩
              · simp only [Except.ok.injEq, Prod.mk.injEq] at h
                obtain ⟨hr, -⟩ := h
                subst hr
                exact ⟨rfl, rfl⟩
  · intro bhf fuel now mkId cs txs r cs2 h
    rw [proposeBlock] at h
    split at h
    · exact Except.noConfusion h
    · split at h
      · exact Except.noConfusion h
      · dsimp only at h
        split at h
        · split at h
          · exact Except.noConfusion h
          · split at h
            · exact Except.noConfusion h
            · split at h
              · exact Except.noConfusion h
              · rename_i vOk hveq
                cases vOk with
                | false =>
                  rw [if_neg (by decide)] at h
                  dsimp only at h
                  simp only [Except.ok.injEq, Prod.mk.injEq] at h
                  obtain ⟨hr, -⟩ := h
                  subst hr
                  exact ⟨rfl, rfl⟩
                | true =>
                  rw [if_pos rfl] at h
                  split at h
                  · exact Except.noConfusion h
                  · simp only [Except.ok.injEq, Prod.mk.injEq] at h
                    obtain ⟨hr, -⟩ := h
                    subst hr
                    exact ⟨rfl, rfl⟩
        · split at h
          · exact Except.noConfusion h
          · split at h
            · exact Except.noConfusion h
            · split at h
              · exact Except.noConfusion h
              · simp only [Except.ok.injEq, Prod.mk.injEq] at h
                obtain ⟨hr, -⟩ := h
                subst hr
                exact ⟨rfl, rfl⟩

/-- A consensus state with 3 registered nodes and 2 recorded yes votes on the
proposal stored under `h1`. -/
def csW : ConsState := ⟨"node1", 3, ⟨[wGenesis], []⟩, [("h1", wMined)],
  [("h1", [("node1", true), ("node2", true)])]⟩

/-- Witness for C4: the exact form of the comparison at 3 nodes, and
`checkConsensus` on the concrete 2-of-3 state reporting exactly the quorum
comparison (which is false there: 2/3 < 0.67). -/
theorem consensusQuorumExactWitness :
    (quorumOf 2 3 = true ↔ 67 * 3 ≤ 100 * 2) ∧
    (quorumOf 2 3 = quorumOf 2 3 ∧ 3 = csW.nodeCount) :=
  ⟨consensusQuorumExact.1 2 3 (by decide),
   consensusQuorumExact.2.2.1 csW "h1" (quorumOf 2 3) 2 2 3 rfl⟩
